import Mathlib

/-!
# Verification of the PassKeeper core (StorageEngine / Randomizer)

Shallow embedding of `src/StorageEngine.cpp` (DataRow codec, StorageEngine
read/write paths) and the Randomizer (entropy pool and generators), with
theorems settling the frozen claims about the codec round trip, error
handling, the record order, and the generators.

Bytes are modelled as `Nat` (values 0..255 in intended use); buffers as
`List Nat`.  The OpenSSL DER helpers (`ASN1_object_size`, `ASN1_put_object`,
`ASN1_get_object`) are modelled from the DER subset the file format uses
(universal/context-specific classes, constructed/primitive flag, short and
long length forms); bit-field extraction from the identifier octet is written
with `/` and `%` (arithmetically equal to the `&` masks OpenSSL uses).
-/

abbrev Bytes := List Nat

/-! ## DER primitives (model of the OpenSSL ASN.1 helpers) -/

/-- Big-endian minimal byte string of a natural number (empty for 0).
The first argument is recursion fuel; `n` itself is always sufficient. -/
def beBytes : Nat → Nat → Bytes
  | 0, _ => []
  | fuel + 1, n => if n = 0 then [] else beBytes fuel (n / 256) ++ [n % 256]

/-- Recombine big-endian bytes into a number. -/
def combineBE (l : Bytes) : Nat := l.foldl (fun a d => a * 256 + d) 0

/-- DER length octets: short form below 128, else long form
(`0x80 + count` followed by the big-endian length bytes). -/
def lenOctets (len : Nat) : Bytes :=
  if len < 128 then [len] else (128 + (beBytes len len).length) :: beBytes len len

/-- Model of `ASN1_object_size(constructed, length, tag)` for the tags the
file format uses (all below 31, so the identifier is one octet). -/
def asn1ObjectSize (len _tag : Nat) : Nat := 1 + (lenOctets len).length + len

/-- Model of `ASN1_put_object`: the header octets (identifier + length).
The caller appends the content bytes, as the C code does. -/
def asn1PutObject (constructed : Bool) (xclass tag len : Nat) : Bytes :=
  (xclass + (if constructed then 32 else 0) + tag) :: lenOctets len

/-- Parse DER length octets: returns (length, octets consumed).
`0x80` (indefinite form) is an error for this format; the long form reads
`first - 0x80` big-endian bytes. -/
def parseLen : Bytes → Option (Nat × Nat)
  | [] => none
  | b :: rest =>
    if b < 128 then some (b, 1)
    else if b = 128 then none
    else
      let n := b - 128
      if n ≤ rest.length then some (combineBE (rest.take n), 1 + n) else none

/-- Model of `ASN1_get_object` on the DER subset: returns
(constructed flag, class bits, tag, content length, header size), or `none`
for a malformed header, the high-tag-number form, an indefinite length, or a
content length running past the buffer (OpenSSL's `0x80` error return, which
every caller in the source treats as a parse failure). -/
def asn1GetObject (bytes : Bytes) : Option (Bool × Nat × Nat × Nat × Nat) :=
  match bytes with
  | [] => none
  | b :: rest =>
    let tagBits := b % 32
    let constructed := b / 32 % 2 = 1
    let xclass := b / 64 * 64
    if tagBits = 31 then none
    else
      match parseLen rest with
      | none => none
      | some (len, lenCnt) =>
        if lenCnt + len ≤ rest.length then
          some (constructed, xclass, tagBits, len, 1 + lenCnt)
        else none

/-! ## DataRow: the record and its codec -/

/-- One vault record: four byte-string cells with fixed role tags
Service=0, Login=1, Password=2, Comment=16 (`cellTags` in the source). -/
structure DataRow where
  service : Bytes
  login : Bytes
  password : Bytes
  comment : Bytes
deriving DecidableEq

/-- The default-constructed row: all cells empty. -/
def emptyRow : DataRow := ⟨[], [], [], []⟩

/-- The cells paired with their role tags, in the source's `cellTags` order. -/
def DataRow.taggedCells (r : DataRow) : List (Nat × Bytes) :=
  [(0, r.service), (1, r.login), (2, r.password), (16, r.comment)]

/-- First pass of `DataRow::encode`: total size of the cell frames of the
non-empty cells. -/
def DataRow.entryDataSize (r : DataRow) : Nat :=
  (r.taggedCells.map fun p => if p.2.isEmpty then 0 else asn1ObjectSize p.2.length p.1).sum

/-- Second pass of `DataRow::encode`: the record frame bytes (SET-OF header,
then for each non-empty cell in role order the cell header and cell bytes). -/
def DataRow.rowBytes (r : DataRow) : Bytes :=
  asn1PutObject true 0 17 r.entryDataSize ++
    (r.taggedCells.map fun p =>
      if p.2.isEmpty then [] else asn1PutObject false 128 p.1 p.2.length ++ p.2).flatten

/-- Return value of `DataRow::encode(dst, maxSize)`: 0 when all cells are
empty; with a destination (`haveDst`), 0 when the frame exceeds `maxSize`;
otherwise the frame size. -/
def DataRow.encode (r : DataRow) (haveDst : Bool) (maxSize : Nat) : Nat :=
  if r.entryDataSize = 0 then 0
  else
    let entrySize := asn1ObjectSize r.entryDataSize 17
    if haveDst ∧ entrySize > maxSize then 0 else entrySize

/-- Cell dispatch of the parsing constructor: append `content` to the cell
whose role tag matches; unknown tags are skipped. -/
def appendCell (row : DataRow) (tag : Nat) (content : Bytes) : DataRow :=
  if tag = 0 then { row with service := row.service ++ content }
  else if tag = 1 then { row with login := row.login ++ content }
  else if tag = 2 then { row with password := row.password ++ content }
  else if tag = 16 then { row with comment := row.comment ++ content }
  else row

/-- Inner loop of the parsing constructor `DataRow::DataRow(ptr, endPtr)`:
parse cell frames inside the record body.  Requires a primitive
context-specific frame; anything else (including a parse error) stops the
loop, keeping the cells collected so far.  Fuel `inner.length + 1` always
suffices (each frame consumes at least one byte). -/
def parseCells : Nat → DataRow → Bytes → DataRow
  | 0, row, _ => row
  | fuel + 1, row, inner =>
    if inner.isEmpty then row
    else
      match asn1GetObject inner with
      | none => row
      | some (constructed, xclass, tag, len, hdr) =>
        if constructed = false ∧ xclass = 128 then
          parseCells fuel (appendCell row tag ((inner.drop hdr).take len))
            ((inner.drop hdr).drop len)
        else row

/-- The parsing constructor `DataRow::DataRow`: requires a constructed
universal SET-OF (tag 17) header fitting the buffer, else rewinds to the end
returning the all-empty row.  Returns the parsed row and the bytes after the
record frame. -/
def parseRow (bytes : Bytes) : DataRow × Bytes :=
  match asn1GetObject bytes with
  | none => (emptyRow, [])
  | some (constructed, xclass, tag, len, hdr) =>
    if constructed = true ∧ tag = 17 ∧ xclass = 0 then
      (parseCells (((bytes.drop hdr).take len).length + 1) emptyRow ((bytes.drop hdr).take len),
        (bytes.drop hdr).drop len)
    else (emptyRow, [])

/-! ## Record order and the multiset store -/

/-- Three-way byte comparison of two byte lists (unsigned, shorter prefix
first), the comparison `strcmp` performs on the bytes before the first NUL. -/
def bytesCmp : Bytes → Bytes → Ordering
  | [], [] => .eq
  | [], _ :: _ => .lt
  | _ :: _, [] => .gt
  | a :: as, b :: bs => if a < b then .lt else if b < a then .gt else bytesCmp as bs

/-- The byte prefix `strcmp` actually reads from a cell: everything before
the first NUL byte (`QByteArray::constData` is NUL-terminated). -/
def cString (a : Bytes) : Bytes := a.takeWhile (· ≠ 0)

/-- Model of `strcmp` on two cells. -/
def strCmp (a b : Bytes) : Ordering := bytesCmp (cString a) (cString b)

/-- `DataRow::operator<`: cell-by-cell `strcmp` in role order, first strict
difference decides; equal tuples compare not-less. -/
def DataRow.lt (r other : DataRow) : Bool :=
  match strCmp r.service other.service with
  | .lt => true
  | .gt => false
  | .eq =>
    match strCmp r.login other.login with
    | .lt => true
    | .gt => false
    | .eq =>
      match strCmp r.password other.password with
      | .lt => true
      | .gt => false
      | .eq =>
        match strCmp r.comment other.comment with
        | .lt => true
        | .gt => false
        | .eq => false

/-- `std::multiset` insertion: the new element goes after all elements it is
not less than (insertion at the upper bound, preserving equal-key order). -/
def insertRow (r : DataRow) : List DataRow → List DataRow
  | [] => [r]
  | x :: xs => if DataRow.lt r x then r :: x :: xs else x :: insertRow r xs

/-- The in-memory record store built by inserting rows in order. -/
def storeRows (rows : List DataRow) : List DataRow :=
  rows.foldl (fun acc r => insertRow r acc) []

/-! ## StorageEngine: serialize / deserialize, encrypt envelope, read path -/

/-- First pass of `StorageEngine::writeDbFile`: the outer sequence's inner
size, summing each row's `encode(NULL, 0)`. -/
def sequenceInnerSize (rows : List DataRow) : Nat :=
  (rows.map fun r => r.encode false 0).sum

/-- The serialized payload `writeDbFile` builds: outer SEQUENCE header
(declaring the first-pass size) followed by each row's frame; all-empty rows
write nothing. -/
def encodeSequence (rows : List DataRow) : Bytes :=
  asn1PutObject true 0 16 (sequenceInnerSize rows) ++
    (rows.map fun r => if r.entryDataSize = 0 then [] else r.rowBytes).flatten

/-- Row loop of `StorageEngine::readDbFile`: parse record frames until the
end of the plaintext.  Fuel `bytes.length + 1` always suffices (each frame
consumes at least one byte, and a malformed frame rewinds to the end). -/
def parseRows : Nat → Bytes → List DataRow
  | 0, _ => []
  | fuel + 1, bytes =>
    if bytes.isEmpty then []
    else
      let pr := parseRow bytes
      pr.1 :: parseRows fuel pr.2

/-- Structure phase of `readDbFile` after decryption: require a constructed
universal SEQUENCE (tag 16) spanning the plaintext exactly
(`curPtr + length == endPtr`), then parse the rows and insert each into the
multiset.  `none` is the "Password DB structure is corrupted" outcome. -/
def decodeSequence (plain : Bytes) : Option (List DataRow) :=
  match asn1GetObject plain with
  | none => none
  | some (constructed, xclass, tag, len, hdr) =>
    if constructed = true ∧ tag = 16 ∧ xclass = 0 ∧ hdr + len = plain.length then
      some (storeRows (parseRows (plain.length + 1) (plain.drop hdr)))
    else none

/-- Model of `StorageEngine::encryptData`.  The AES-256-GCM primitive is
abstracted as `encFn` together with the IV and tag OpenSSL produces; the
model keeps the code's own checks: a 12-byte IV, the in-place update
returning exactly the payload length, a 16-byte tag.  The envelope is
ciphertext ++ IV ++ tag, as the buffer layout in the source. -/
def encryptData (encFn : Bytes → Bytes) (iv mac payload : Bytes) : Option Bytes :=
  if iv.length ≠ 12 then none
  else if (encFn payload).length ≠ payload.length then none
  else if mac.length ≠ 16 then none
  else some (encFn payload ++ iv ++ mac)

/-- `StorageEngine::writeDbFile` up to the file write: serialize the store,
check the serialization filled the buffer exactly (`writePtr == endPtr`),
then encrypt.  Returns the bytes handed to `writeFileContent`. -/
def writeDbFileBytes (encFn : Bytes → Bytes) (iv mac : Bytes) (rows : List DataRow) :
    Option Bytes :=
  let body := encodeSequence rows
  if body.length ≠ asn1ObjectSize (sequenceInnerSize rows) 16 then none
  else encryptData encFn iv mac body

/-- The engine state the read path can touch: the record store and the error
string. -/
structure EngineState where
  data : List DataRow
  errorDescription : String
deriving DecidableEq

/-- Model of `StorageEngine::readDbFile`.  `readResult` is the outcome of
`readFileContent` (`none`: cannot open), `decryptFn` the outcome of
`decryptData` on the file bytes (`none`: wrong password or corruption).
Exactly as in the source, the store is cleared and refilled only after the
outer frame check has passed; every failure leaves `data` untouched and sets
an error string. -/
def readDbFile (readResult : Option Bytes) (decryptFn : Bytes → Option Bytes)
    (st : EngineState) : Bool × EngineState :=
  match readResult with
  | none => (false, { st with errorDescription := "Cannot open DB file" })
  | some content =>
    match decryptFn content with
    | none => (false, { st with errorDescription := "Wrong password or file corruption" })
    | some plain =>
      match decodeSequence plain with
      | none => (false, { st with errorDescription := "Password DB structure is corrupted" })
      | some rows => (true, { st with data := rows })

/-! ## Randomizer: entropy pool and generators -/

/-- State of the `Randomizer` singleton: the 8-limb 256-bit pool, the unread
bit counter, and the sequence of 8-limb blocks future `RAND_bytes` refills
will deliver (an empty sequence means the CSPRNG refuses). -/
structure RandState where
  pool : Bytes
  poolSize : Nat
  stream : List Bytes
deriving DecidableEq

/-- `pool[i]` with the C read semantics. -/
def limbGet (pool : Bytes) (i : Nat) : Nat := pool.getD i 0

/-- The `while (count > 0)` loop of `Randomizer::getBits`, drawing from the
high end of the unread region.  First argument is fuel; since each iteration
consumes at least one bit when `poolSize > 0` (and the loop is entered only
with `count ≤ poolSize`), fuel `count` suffices.  Shifts are reduced modulo
2^32 as on the 32-bit limbs.  Returns (result, pool, poolSize). -/
def getBitsLoop : Nat → Nat → Nat → Bytes → Nat → Nat × Bytes × Nat
  | 0, _, res, pool, poolSize => (res, pool, poolSize)
  | fuel + 1, count, res, pool, poolSize =>
    if count = 0 then (res, pool, poolSize)
    else
      let limbNo := (poolSize - 1) / 32
      let limbRem := poolSize - limbNo * 32
      if limbRem = 0 then (res, pool, poolSize)
      else if limbRem ≤ count then
        getBitsLoop fuel (count - limbRem) (((res <<< count) % 2 ^ 32) ||| limbGet pool limbNo)
          pool (poolSize - limbRem)
      else
        (((res <<< count) % 2 ^ 32) ||| (limbGet pool limbNo >>> (limbRem - count)),
          pool.set limbNo (limbGet pool limbNo % 2 ^ (limbRem - count)),
          poolSize - count)

/-- `Randomizer::getBits(dst, count)`.  When the pool cannot cover the
request, the residual bits of `pool[0]` are taken, the pool is refilled from
the stream (`none` on CSPRNG failure, with `poolSize` already zeroed as in
the source), and the remainder is drawn from the fresh block. -/
def getBits (count : Nat) (s : RandState) : Option Nat × RandState :=
  if count > s.poolSize then
    match s.stream with
    | [] => (none, { s with poolSize := 0 })
    | block :: rest =>
      let res := limbGet s.pool 0 % 2 ^ s.poolSize
      let r := getBitsLoop (count - s.poolSize) (count - s.poolSize) res block 256
      (some r.1, ⟨r.2.1, r.2.2, rest⟩)
  else
    let r := getBitsLoop count count 0 s.pool s.poolSize
    (some r.1, ⟨r.2.1, r.2.2, s.stream⟩)

/-- Bits still obtainable from the pool and the remaining refills. -/
def avail (s : RandState) : Nat := s.poolSize + 256 * s.stream.length

/-- `Randomizer::makeNumber(modulo)`: draw two 32-bit words into a 64-bit
value (low word first, little-endian as on the target) and reduce; on a pool
failure return `modulo` itself as the sentinel. -/
def makeNumber (modulo : Nat) (s : RandState) : Nat × RandState :=
  match getBits 32 s with
  | (none, s1) => (modulo, s1)
  | (some lo, s1) =>
    match getBits 32 s1 with
    | (none, s2) => (modulo, s2)
    | (some hi, s2) => ((lo + 2 ^ 32 * hi) % modulo, s2)

/-- One 4-digit block of `makePin`: push `'0' + t % 10` four times,
dividing `t` by 10 between pushes. -/
def fourDigits (t : Nat) : List Char :=
  [Char.ofNat (48 + t % 10), Char.ofNat (48 + t / 10 % 10),
   Char.ofNat (48 + t / 100 % 10), Char.ofNat (48 + t / 1000 % 10)]

/-- The block loop of `makePin`: one `makeNumber(10000)` per 4 digits. -/
def pinBlocks : Nat → RandState → List Char × RandState
  | 0, s => ([], s)
  | b + 1, s =>
    let m := makeNumber 10000 s
    let rest := pinBlocks b m.2
    (fourDigits m.1 ++ rest.1, rest.2)

/-- `Randomizer::makePin(length)`: generate `ceil(length / 4)` blocks and
truncate (`res.resize(length)`). -/
def makePin (length : Nat) (s : RandState) : List Char × RandState :=
  let r := pinBlocks ((length + 3) / 4) s
  (r.1.take length, r.2)

/-- The fixed 64-symbol password alphabet (`passwordCharSet` in the source). -/
def passwordCharSet : List Char :=
  "ACDEFGHJKLMNPQRSTUVWXYZabcdefghijkmnpqrstuvwxyz0123456789#*?:+=_".data

/-- The fixed hex alphabet (`hexCharSet` in the source). -/
def hexCharSet : List Char := "0123456789abcdef".data

/-- `Randomizer::makePassword(length)`: one 6-bit draw per character,
indexing the alphabet; a pool failure returns the characters already
generated. -/
def makePassword : Nat → RandState → List Char × RandState
  | 0, s => ([], s)
  | len + 1, s =>
    match getBits 6 s with
    | (none, s1) => ([], s1)
    | (some t, s1) =>
      let rest := makePassword len s1
      (passwordCharSet.getD t 'A' :: rest.1, rest.2)

/-- `Randomizer::makeHexBlock(bytes)`: one 8-bit draw per byte, emitting the
low nibble's digit then the high nibble's; a pool failure returns the
characters already generated. -/
def makeHexBlock : Nat → RandState → List Char × RandState
  | 0, s => ([], s)
  | b + 1, s =>
    match getBits 8 s with
    | (none, s1) => ([], s1)
    | (some t, s1) =>
      let rest := makeHexBlock b s1
      (hexCharSet.getD (t &&& 15) 'X' :: hexCharSet.getD (t >>> 4) 'X' :: rest.1, rest.2)

/-- One entry of the weighted literal tables of the name generator. -/
structure LitInfo where
  value : String
  canDup : Bool
  weight : Nat
deriving DecidableEq

/-- The vowel table (`vowelSet` in the source; weights sum to 2^24). -/
def vowelSet : List LitInfo :=
  [⟨"e", true, 5040273⟩, ⟨"a", false, 3406646⟩, ⟨"o", true, 3221018⟩,
   ⟨"i", false, 3063451⟩, ⟨"u", false, 1159547⟩, ⟨"y", false, 886281⟩]

/-- The consonant table (`consonantSet` in the source). -/
def consonantSet : List LitInfo :=
  [⟨"n", true, 1965342⟩, ⟨"r", true, 1703266⟩, ⟨"t", false, 1674560⟩,
   ⟨"s", true, 1466326⟩, ⟨"d", true, 1221783⟩, ⟨"l", true, 1125424⟩,
   ⟨"", false, 1048588⟩, ⟨"th", false, 899191⟩, ⟨"c", true, 766989⟩,
   ⟨"m", true, 738749⟩, ⟨"f", true, 651700⟩, ⟨"w", false, 592582⟩,
   ⟨"g", true, 573031⟩, ⟨"p", false, 514533⟩, ⟨"b", false, 421277⟩,
   ⟨"v", false, 313281⟩, ⟨"sh", false, 310333⟩, ⟨"h", false, 263783⟩,
   ⟨"ch", false, 201716⟩, ⟨"k", false, 195044⟩, ⟨"x", false, 48877⟩,
   ⟨"qu", false, 31809⟩, ⟨"j", false, 29171⟩, ⟨"z", false, 19861⟩]

/-- The word-ending table (`wordEndSet` in the source). -/
def wordEndSet : List LitInfo :=
  [⟨"", false, 4194304⟩, ⟨"t", false, 1331525⟩, ⟨"s", false, 1249585⟩,
   ⟨"r", false, 1167645⟩, ⟨"ck", false, 1085706⟩, ⟨"y", false, 1029371⟩,
   ⟨"k", false, 1003765⟩, ⟨"x", false, 921825⟩, ⟨"n", false, 839885⟩,
   ⟨"th", false, 757945⟩, ⟨"v", false, 676005⟩, ⟨"sh", false, 594065⟩,
   ⟨"p", false, 512125⟩, ⟨"b", false, 430185⟩, ⟨"l", false, 348245⟩,
   ⟨"z", false, 266305⟩, ⟨"ty", false, 221238⟩, ⟨"cy", false, 147492⟩]

/-- The weighted walk of `Randomizer::getLiteral`: return the first entry
whose weight exceeds the remaining draw, subtracting weights as it walks;
none if the draw outruns the table. -/
def litWalk : List LitInfo → Nat → Option LitInfo
  | [], _ => none
  | l :: ls, t => if t < l.weight then some l else litWalk ls (t - l.weight)

/-- `Randomizer::getLiteral`: a 24-bit draw followed by the weighted walk. -/
def getLiteral (table : List LitInfo) (s : RandState) : Option LitInfo × RandState :=
  match getBits 24 s with
  | (none, s1) => (none, s1)
  | (some t, s1) => (litWalk table t, s1)

/-- The syllable-count loop of `makeName`: `maxS - minS` one-bit draws summed
onto the minimum. -/
def countLoop : Nat → Nat → RandState → Option Nat × RandState
  | 0, acc, s => (some acc, s)
  | k + 1, acc, s =>
    match getBits 1 s with
    | (none, s1) => (none, s1)
    | (some b, s1) => countLoop k (acc + b) s1

/-- The per-syllable loop of `makeName` (arguments: remaining syllables, the
0-based syllable index `i`, the accumulated output, the pool state).  The
boolean is false when a pool failure ended generation early (the C code
returns `res` from inside the loop, skipping the word ending).

Mirrors the source exactly: the first consonant is dropped for `i = 0` when
`t < 4`; `t = 0` with a duplicable consonant duplicates it (never at the
word start); otherwise `t ≥ 12` draws a replacement consonant and a fresh
`t` — and, as in the source, that replacement is never appended, because the
variable holding it is overwritten by the vowel draw. -/
def syllLoop : Nat → Nat → String → RandState → String × RandState × Bool
  | 0, _, res, s => (res, s, true)
  | remaining + 1, i, res, s =>
    -- the vowel half of the syllable, ending in the next loop iteration
    let vowelStep : String → RandState → String × RandState × Bool := fun res s =>
      match getLiteral vowelSet s with
      | (none, s1) => (res, s1, false)
      | (some vlit, s1) =>
        match getBits 4 s1 with
        | (none, s2) => (res, s2, false)
        | (some t, s2) =>
          let res2 := res ++ vlit.value
          let res3 :=
            if t = 0 ∧ vlit.canDup ∧ res2.length > 1 then res2 ++ vlit.value else res2
          syllLoop remaining (i + 1) res3 s2
    match getLiteral consonantSet s with
    | (none, s1) => (res, s1, false)
    | (some lit, s1) =>
      match getBits 4 s1 with
      | (none, s2) => (res, s2, false)
      | (some t, s2) =>
        let res1 := if i ≠ 0 ∨ t ≥ 4 then res ++ lit.value else res
        if t = 0 ∧ lit.canDup ∧ i ≠ 0 then
          vowelStep (res1 ++ lit.value) s2
        else if t ≥ 12 then
          match getLiteral consonantSet s2 with
          | (none, s3) => (res1, s3, false)
          | (some _lit2, s3) =>
            match getBits 4 s3 with
            | (none, s4) => (res1, s4, false)
            | (some _t2, s4) => vowelStep res1 s4
        else vowelStep res1 s2

/-- `Randomizer::makeName(minSyllables, maxSyllables)`. -/
def makeName (minS maxS : Nat) (s : RandState) : String × RandState :=
  match countLoop (maxS - minS) minS s with
  | (none, s1) => ("", s1)
  | (some cnt, s1) =>
    match syllLoop cnt 0 "" s1 with
    | (res, s2, false) => (res, s2)
    | (res, s2, true) =>
      match getLiteral wordEndSet s2 with
      | (none, s3) => (res, s3)
      | (some lit, s3) => (res ++ lit.value, s3)

/-! ## Spec-side definitions

These follow the specification's words, for comparison against the
source-derived definitions above. -/

/-- The spec's byte-wise lexicographic strict order on byte strings. -/
def specBytesLt (a b : Bytes) : Prop := List.Lex (· < ·) a b

instance (a b : Bytes) : Decidable (specBytesLt a b) :=
  List.Lex.decidableRel (· < ·) a b

/-- A record's 4-cell key in role order, as the spec describes it: the raw
cell byte strings. -/
def rawKey (r : DataRow) : Bytes × Bytes × Bytes × Bytes :=
  (r.service, r.login, r.password, r.comment)

/-- Spec-side strict lexicographic order on 4-cell keys. -/
def tupLexLt (a b : Bytes × Bytes × Bytes × Bytes) : Prop :=
  specBytesLt a.1 b.1 ∨ (a.1 = b.1 ∧
    (specBytesLt a.2.1 b.2.1 ∨ (a.2.1 = b.2.1 ∧
      (specBytesLt a.2.2.1 b.2.2.1 ∨ (a.2.2.1 = b.2.2.1 ∧
        specBytesLt a.2.2.2 b.2.2.2)))))

instance (a b : Bytes × Bytes × Bytes × Bytes) : Decidable (tupLexLt a b) := by
  unfold tupLexLt; infer_instance

/-- The spec's record order: byte-wise lexicographic on the raw 4-cell keys. -/
def specRowLt (r s : DataRow) : Prop := tupLexLt (rawKey r) (rawKey s)

instance (r s : DataRow) : Decidable (specRowLt r s) := by
  unfold specRowLt; infer_instance

/-- Non-strict version: the canonical-order relation the decoded store should
satisfy pairwise according to the spec. -/
def specRowLe (r s : DataRow) : Prop := specRowLt r s ∨ rawKey r = rawKey s

instance (r s : DataRow) : Decidable (specRowLe r s) := by
  unfold specRowLe; infer_instance

/-! ## Comparator theory for `bytesCmp` and the record order -/

theorem bytesCmp_eq_iff {a b : Bytes} : bytesCmp a b = .eq ↔ a = b := by
  induction a generalizing b with
  | nil => cases b <;> simp [bytesCmp]
  | cons x xs ih =>
    cases b with
    | nil => simp [bytesCmp]
    | cons y ys =>
      by_cases h1 : x < y
      · simp [bytesCmp, h1]
        omega
      · by_cases h2 : y < x
        · simp [bytesCmp, h1, h2]
          omega
        · have hxy : x = y := by omega
          subst hxy
          simp [bytesCmp, h1, h2, ih]

theorem bytesCmp_swap (a b : Bytes) : (bytesCmp a b).swap = bytesCmp b a := by
  induction a generalizing b with
  | nil => cases b <;> simp [bytesCmp, Ordering.swap]
  | cons x xs ih =>
    cases b with
    | nil => simp [bytesCmp, Ordering.swap]
    | cons y ys =>
      by_cases h1 : x < y
      · have h2 : ¬y < x := by omega
        simp [bytesCmp, h1, h2, Ordering.swap]
      · by_cases h2 : y < x
        · simp [bytesCmp, h1, h2, Ordering.swap]
        · simp [bytesCmp, h1, h2, ih]

theorem bytesCmp_gt_iff {a b : Bytes} : bytesCmp a b = .gt ↔ bytesCmp b a = .lt := by
  rw [← bytesCmp_swap b a]
  cases bytesCmp b a <;> simp [Ordering.swap]

theorem bytesCmp_trans {a b c : Bytes} (h1 : bytesCmp a b = .lt) (h2 : bytesCmp b c = .lt) :
    bytesCmp a c = .lt := by
  induction a generalizing b c with
  | nil =>
    cases b with
    | nil => simp [bytesCmp] at h1
    | cons y ys => cases c with
      | nil => simp [bytesCmp] at h2
      | cons z zs => simp [bytesCmp]
  | cons x xs ih =>
    cases b with
    | nil => simp [bytesCmp] at h1
    | cons y ys =>
      cases c with
      | nil => simp [bytesCmp] at h2
      | cons z zs =>
        simp only [bytesCmp] at h1 h2 ⊢
        by_cases hxy : x < y
        · by_cases hyz : y < z
          · have : x < z := by omega
            simp [this]
          · by_cases hzy : z < y
            · simp [hyz, hzy] at h2
            · have : y = z := by omega
              subst this
              simp [hxy]
        · by_cases hyx : y < x
          · simp [hxy, hyx] at h1
          · have hxy' : x = y := by omega
            subst hxy'
            simp only [lt_irrefl, if_false] at h1
            by_cases hyz : x < z
            · simp [hyz]
            · by_cases hzy : z < x
              · simp [hyz, hzy] at h2
              · simp [hyz, hzy] at h1 h2 ⊢
                exact ih h1 h2

/-- `bytesCmp` agrees with the spec's lexicographic order. -/
theorem bytesCmp_lt_iff_lex {a b : Bytes} : bytesCmp a b = .lt ↔ specBytesLt a b := by
  unfold specBytesLt
  induction a generalizing b with
  | nil =>
    cases b with
    | nil => simp [bytesCmp]
    | cons y ys => simp [bytesCmp]; exact List.Lex.nil
  | cons x xs ih =>
    cases b with
    | nil =>
      simp [bytesCmp]
    | cons y ys =>
      by_cases h1 : x < y
      · simp [bytesCmp, h1]
        exact List.Lex.rel h1
      · by_cases h2 : y < x
        · simp [bytesCmp, h1, h2]
          intro h
          cases h with
          | rel h => omega
          | cons h => omega
        · have hxy : x = y := by omega
          subst hxy
          simp only [bytesCmp, h1, if_false, ih]
          constructor
          · exact fun h => List.Lex.cons h
          · intro h
            cases h with
            | rel h => omega
            | cons h => exact h

/-- The key `DataRow::operator<` effectively compares: the four cells
truncated at their first NUL byte. -/
def cKey (r : DataRow) : Bytes × Bytes × Bytes × Bytes :=
  (cString r.service, cString r.login, cString r.password, cString r.comment)

theorem then_eq_eq {o p : Ordering} : o.then p = .eq ↔ o = .eq ∧ p = .eq := by
  cases o <;> simp [Ordering.then]

theorem then_eq_lt {o p : Ordering} : o.then p = .lt ↔ o = .lt ∨ (o = .eq ∧ p = .lt) := by
  cases o <;> simp [Ordering.then]

theorem then_swap (o p : Ordering) : (o.then p).swap = o.swap.then p.swap := by
  cases o <;> cases p <;> rfl

/-- Lexicographic transitivity transfers through `Ordering.then`. -/
theorem then_lex_trans {α β : Type} (f : α → α → Ordering) (g : β → β → Ordering)
    (hfe : ∀ {x y : α}, f x y = .eq ↔ x = y)
    (hft : ∀ {x y z : α}, f x y = .lt → f y z = .lt → f x z = .lt)
    (hgt : ∀ {x y z : β}, g x y = .lt → g y z = .lt → g x z = .lt)
    {a1 b1 c1 : α} {a2 b2 c2 : β}
    (h1 : (f a1 b1).then (g a2 b2) = .lt) (h2 : (f b1 c1).then (g b2 c2) = .lt) :
    (f a1 c1).then (g a2 c2) = .lt := by
  rw [then_eq_lt] at h1 h2 ⊢
  rcases h1 with h1 | ⟨e1, h1⟩ <;> rcases h2 with h2 | ⟨e2, h2⟩
  · exact .inl (hft h1 h2)
  · rw [hfe] at e2
    exact .inl (e2 ▸ h1)
  · rw [hfe] at e1
    exact .inl (e1 ▸ h2)
  · rw [hfe] at e1 e2
    exact .inr ⟨hfe.mpr (e1.trans e2), hgt h1 h2⟩

/-- Pairwise comparison on the last two key components. -/
def cmp2 (a b : Bytes × Bytes) : Ordering := (bytesCmp a.1 b.1).then (bytesCmp a.2 b.2)

/-- Comparison on the last three key components. -/
def cmp3 (a b : Bytes × Bytes × Bytes) : Ordering := (bytesCmp a.1 b.1).then (cmp2 a.2 b.2)

/-- Three-way comparison on 4-tuples of byte strings, lexicographically by
component. -/
def tupCmp (a b : Bytes × Bytes × Bytes × Bytes) : Ordering :=
  (bytesCmp a.1 b.1).then (cmp3 a.2 b.2)

theorem cmp2_eq_iff {a b : Bytes × Bytes} : cmp2 a b = .eq ↔ a = b := by
  obtain ⟨a1, a2⟩ := a
  obtain ⟨b1, b2⟩ := b
  simp [cmp2, then_eq_eq, bytesCmp_eq_iff, Prod.ext_iff]

theorem cmp3_eq_iff {a b : Bytes × Bytes × Bytes} : cmp3 a b = .eq ↔ a = b := by
  obtain ⟨a1, a2⟩ := a
  obtain ⟨b1, b2⟩ := b
  simp [cmp3, then_eq_eq, bytesCmp_eq_iff, cmp2_eq_iff, Prod.ext_iff]

theorem tupCmp_eq_iff {a b : Bytes × Bytes × Bytes × Bytes} : tupCmp a b = .eq ↔ a = b := by
  obtain ⟨a1, a2⟩ := a
  obtain ⟨b1, b2⟩ := b
  simp [tupCmp, then_eq_eq, bytesCmp_eq_iff, cmp3_eq_iff, Prod.ext_iff]

theorem cmp2_trans {a b c : Bytes × Bytes} (h1 : cmp2 a b = .lt) (h2 : cmp2 b c = .lt) :
    cmp2 a c = .lt := by
  simp only [cmp2] at h1 h2 ⊢
  exact then_lex_trans bytesCmp bytesCmp bytesCmp_eq_iff bytesCmp_trans bytesCmp_trans h1 h2

theorem cmp3_trans {a b c : Bytes × Bytes × Bytes} (h1 : cmp3 a b = .lt)
    (h2 : cmp3 b c = .lt) : cmp3 a c = .lt := by
  simp only [cmp3] at h1 h2 ⊢
  exact then_lex_trans bytesCmp cmp2 bytesCmp_eq_iff bytesCmp_trans cmp2_trans h1 h2

theorem tupCmp_trans {a b c : Bytes × Bytes × Bytes × Bytes}
    (h1 : tupCmp a b = .lt) (h2 : tupCmp b c = .lt) : tupCmp a c = .lt := by
  simp only [tupCmp] at h1 h2 ⊢
  exact then_lex_trans bytesCmp cmp3 bytesCmp_eq_iff bytesCmp_trans cmp3_trans h1 h2

theorem cmp2_swap (a b : Bytes × Bytes) : (cmp2 a b).swap = cmp2 b a := by
  rw [cmp2, cmp2, then_swap, bytesCmp_swap, bytesCmp_swap]

theorem cmp3_swap (a b : Bytes × Bytes × Bytes) : (cmp3 a b).swap = cmp3 b a := by
  rw [cmp3, cmp3, then_swap, bytesCmp_swap, cmp2_swap]

theorem tupCmp_swap (a b : Bytes × Bytes × Bytes × Bytes) :
    (tupCmp a b).swap = tupCmp b a := by
  rw [tupCmp, tupCmp, then_swap, bytesCmp_swap, cmp3_swap]

theorem tupCmp_gt_iff {a b : Bytes × Bytes × Bytes × Bytes} :
    tupCmp a b = .gt ↔ tupCmp b a = .lt := by
  rw [← tupCmp_swap b a]
  rcases tupCmp b a <;> simp [Ordering.swap]

/-- `DataRow::operator<` decides exactly the strict comparison of the
NUL-truncated keys. -/
theorem lt_iff_tupCmp {r s : DataRow} :
    DataRow.lt r s = true ↔ tupCmp (cKey r) (cKey s) = .lt := by
  rcases e1 : bytesCmp (cString r.service) (cString s.service) <;>
    rcases e2 : bytesCmp (cString r.login) (cString s.login) <;>
      rcases e3 : bytesCmp (cString r.password) (cString s.password) <;>
        rcases e4 : bytesCmp (cString r.comment) (cString s.comment) <;>
          simp [DataRow.lt, tupCmp, cmp3, cmp2, cKey, strCmp, e1, e2, e3, e4, Ordering.then]

/-- Equal-keyed rows are never strictly less. -/
theorem lt_false_of_cKey_eq {r s : DataRow} (h : cKey r = cKey s) : DataRow.lt r s = false := by
  rw [Bool.eq_false_iff]
  intro hb
  have h1 := lt_iff_tupCmp.mp hb
  rw [h, tupCmp_eq_iff.mpr rfl] at h1
  exact absurd h1 (by decide)

/-- The record order is asymmetric. -/
theorem rowLt_asymm {r s : DataRow} (h : DataRow.lt r s = true) : DataRow.lt s r = false := by
  rw [Bool.eq_false_iff]
  intro h2
  have := tupCmp_trans (lt_iff_tupCmp.mp h) (lt_iff_tupCmp.mp h2)
  rw [tupCmp_eq_iff.mpr rfl] at this
  exact absurd this (by decide)

/-- The not-less relation the store keeps pairwise between earlier and later
elements. -/
def rowLe (a b : DataRow) : Prop := DataRow.lt b a = false

theorem lt_eq_false_iff {r s : DataRow} :
    DataRow.lt r s = false ↔ tupCmp (cKey r) (cKey s) ≠ .lt := by
  rcases h : DataRow.lt r s
  · simp only [true_iff, ne_eq]
    intro hc
    rw [← lt_iff_tupCmp] at hc
    rw [h] at hc
    exact Bool.false_ne_true hc
  · simp only [Bool.true_eq_false, false_iff, ne_eq, not_not]
    exact lt_iff_tupCmp.mp h

theorem rowLe_iff {a b : DataRow} : rowLe a b ↔ tupCmp (cKey a) (cKey b) ≠ .gt := by
  rw [rowLe, lt_eq_false_iff, not_iff_not, tupCmp_gt_iff]

/-- `rowLe` composed with a strict comparison stays strict. -/
theorem lt_of_lt_of_rowLe {a b c : DataRow} (h1 : tupCmp (cKey a) (cKey b) = .lt)
    (h2 : rowLe b c) : tupCmp (cKey a) (cKey c) = .lt := by
  rw [rowLe_iff] at h2
  rcases h : tupCmp (cKey b) (cKey c)
  · exact tupCmp_trans h1 h
  · rw [tupCmp_eq_iff] at h
    rw [← h]
    exact h1
  · exact absurd h h2

theorem rowLe_trans {a b c : DataRow} (h1 : rowLe a b) (h2 : rowLe b c) : rowLe a c := by
  rw [rowLe_iff] at h1 h2 ⊢
  intro hac
  rw [tupCmp_gt_iff] at hac
  rcases hab : tupCmp (cKey a) (cKey b)
  · exact h2 (tupCmp_gt_iff.mpr (tupCmp_trans hac hab))
  · rw [tupCmp_eq_iff] at hab
    refine h2 ?_
    rw [← hab]
    exact tupCmp_gt_iff.mpr hac
  · exact h1 hab

/-- Inserting at the upper bound keeps every element of the list. -/
theorem insertRow_perm (r : DataRow) (l : List DataRow) :
    (insertRow r l).Perm (r :: l) := by
  induction l with
  | nil => exact List.Perm.refl _
  | cons x xs ih =>
    by_cases h : DataRow.lt r x
    · simp [insertRow, h]
    · simp only [insertRow, h, if_false, Bool.false_eq_true]
      exact ((ih.cons x).trans (List.Perm.swap r x xs))

/-- When the new row is not less than anything present, upper-bound insertion
appends. -/
theorem insertRow_append {r : DataRow} {l : List DataRow}
    (h : ∀ x ∈ l, DataRow.lt r x = false) : insertRow r l = l ++ [r] := by
  induction l with
  | nil => rfl
  | cons x xs ih =>
    have hx := h x (by simp)
    simp only [insertRow, hx, Bool.false_eq_true, if_false, List.cons_append, List.cons.injEq,
      true_and]
    exact ih fun y hy => h y (by simp [hy])

/-- Upper-bound insertion preserves sortedness. -/
theorem insertRow_sorted {r : DataRow} {l : List DataRow} (h : l.Pairwise rowLe) :
    (insertRow r l).Pairwise rowLe := by
  induction l with
  | nil => simp [insertRow, List.Pairwise.nil]
  | cons x xs ih =>
    rcases List.pairwise_cons.mp h with ⟨hx, hxs⟩
    by_cases hr : DataRow.lt r x = true
    · simp only [insertRow, hr, if_true]
      refine List.pairwise_cons.mpr ⟨?_, h⟩
      intro y hy
      rcases List.mem_cons.mp hy with rfl | hy'
      · exact rowLt_asymm hr
      · exact rowLe_trans (rowLt_asymm hr) (hx y hy')
    · rw [Bool.not_eq_true] at hr
      simp only [insertRow, hr, Bool.false_eq_true, if_false]
      refine List.pairwise_cons.mpr ⟨?_, ih hxs⟩
      intro y hy
      rcases List.mem_cons.mp ((insertRow_perm r xs).mem_iff.mp hy) with rfl | hy'
      · exact hr
      · exact hx y hy'

/-- The store of any row list is sorted. -/
theorem storeRows_sorted (rows : List DataRow) : (storeRows rows).Pairwise rowLe := by
  have main : ∀ (rs : List DataRow) (acc : List DataRow), acc.Pairwise rowLe →
      (rs.foldl (fun acc r => insertRow r acc) acc).Pairwise rowLe := by
    intro rs
    induction rs with
    | nil => exact fun acc h => h
    | cons r rest ih =>
      intro acc hacc
      exact ih (insertRow r acc) (insertRow_sorted hacc)
  exact main rows [] List.Pairwise.nil

/-- The store keeps exactly the inserted rows (multiset semantics: duplicates
preserved, nothing dropped). -/
theorem storeRows_perm (rows : List DataRow) : (storeRows rows).Perm rows := by
  have main : ∀ (rs : List DataRow) (acc : List DataRow),
      (rs.foldl (fun acc r => insertRow r acc) acc).Perm (acc ++ rs) := by
    intro rs
    induction rs with
    | nil => simp
    | cons r rest ih =>
      intro acc
      rw [List.foldl_cons]
      refine (ih (insertRow r acc)).trans ?_
      refine ((insertRow_perm r acc).append_right rest).trans ?_
      simp only [List.cons_append]
      exact List.perm_middle.symm
  simpa using main rows []

/-- Inserting an already-sorted list in order reproduces it. -/
theorem storeRows_of_sorted {l : List DataRow} (h : l.Pairwise rowLe) : storeRows l = l := by
  have main : ∀ (rest acc : List DataRow), (acc ++ rest).Pairwise rowLe →
      (rest.foldl (fun acc r => insertRow r acc) acc) = acc ++ rest := by
    intro rest
    induction rest with
    | nil => simp
    | cons r rs ih =>
      intro acc hacc
      have hins : insertRow r acc = acc ++ [r] := by
        refine insertRow_append fun x hx => ?_
        have := (List.pairwise_append.mp hacc).2.2 x hx r (by simp)
        exact this
      have hrearr : (acc ++ [r]) ++ rs = acc ++ r :: rs := by simp
      rw [List.foldl_cons, hins, ih (acc ++ [r]) (by rw [hrearr]; exact hacc)]
      simp
  simpa using main l [] (by simpa using h)

/-! ## Codec round trip -/

theorem combineBE_append (l : Bytes) (d : Nat) :
    combineBE (l ++ [d]) = combineBE l * 256 + d := by
  simp [combineBE, List.foldl_append]

theorem combineBE_beBytes : ∀ fuel n : Nat, n ≤ fuel → combineBE (beBytes fuel n) = n := by
  intro fuel
  induction fuel with
  | zero =>
    intro n h
    have : n = 0 := by omega
    subst this
    rfl
  | succ f ih =>
    intro n h
    by_cases h0 : n = 0
    · subst h0
      simp [beBytes, combineBE]
    · rw [beBytes]
      simp only [h0, if_false]
      have hlt : n / 256 < n := Nat.div_lt_self (by omega) (by omega)
      rw [combineBE_append, ih (n / 256) (by omega)]
      omega

theorem beBytes_ne_nil {fuel n : Nat} (h1 : 1 ≤ n) (h2 : n ≤ fuel) : beBytes fuel n ≠ [] := by
  cases fuel with
  | zero => omega
  | succ f =>
    rw [beBytes]
    simp only [show n ≠ 0 by omega, if_false]
    simp

theorem parseLen_lenOctets (len : Nat) (rest : Bytes) :
    parseLen (lenOctets len ++ rest) = some (len, (lenOctets len).length) := by
  by_cases h : len < 128
  · simp [lenOctets, parseLen, h]
  · have hne : beBytes len len ≠ [] := beBytes_ne_nil (by omega) le_rfl
    have hL : 1 ≤ (beBytes len len).length := List.length_pos.mpr hne
    simp only [lenOctets, h, if_false, List.cons_append, parseLen]
    have c1 : ¬(128 + (beBytes len len).length < 128) := by omega
    have c2 : ¬(128 + (beBytes len len).length = 128) := by omega
    simp only [c1, if_false, c2]
    have c3 : 128 + (beBytes len len).length - 128 = (beBytes len len).length := by omega
    rw [c3]
    have c4 : (beBytes len len).length ≤ (beBytes len len ++ rest).length := by
      simp
    simp only [c4, if_true]
    rw [List.take_left, combineBE_beBytes len len le_rfl]
    simp
    omega

/-- `ASN1_get_object` recovers exactly what `ASN1_put_object` wrote, for the
classes and single-octet tags the file format uses. -/
theorem getObject_putObject (c : Bool) (xclass tag len : Nat) (rest : Bytes)
    (hx : xclass = 0 ∨ xclass = 128) (ht : tag < 31) (hlen : len ≤ rest.length) :
    asn1GetObject (asn1PutObject c xclass tag len ++ rest) =
      some (c, xclass, tag, len, 1 + (lenOctets len).length) := by
  have hb : ∀ b : Nat, b = xclass + (if c then 32 else 0) + tag →
      b % 32 = tag ∧ (decide (b / 32 % 2 = 1)) = c ∧ b / 64 * 64 = xclass := by
    intro b hbe
    rcases hx with hx | hx <;> rcases c <;> subst hx <;> simp at hbe <;> subst hbe <;>
      refine ⟨by omega, ?_, by omega⟩ <;> simp <;> omega
  obtain ⟨h1, h2, h3⟩ := hb _ rfl
  simp only [asn1PutObject, List.cons_append, asn1GetObject, h1]
  rw [parseLen_lenOctets]
  simp only [show tag ≠ 31 by omega, if_false]
  have hfit : (lenOctets len).length + len ≤ (lenOctets len ++ rest).length := by
    simp
    omega
  simp only [hfit, if_true, h2, h3]

/-- Concatenated cell frames for a list of (tag, content) pairs. -/
def cellFrames (L : List (Nat × Bytes)) : Bytes :=
  (L.map fun p => asn1PutObject false 128 p.1 p.2.length ++ p.2).flatten

theorem cellFrames_cons (p : Nat × Bytes) (L : List (Nat × Bytes)) :
    cellFrames (p :: L) =
      asn1PutObject false 128 p.1 p.2.length ++ (p.2 ++ cellFrames L) := by
  simp [cellFrames, List.append_assoc]

/-- Each cell frame contributes at least one byte. -/
theorem length_le_cellFrames (L : List (Nat × Bytes)) : L.length ≤ (cellFrames L).length := by
  induction L with
  | nil => simp [cellFrames]
  | cons p L ih =>
    rw [cellFrames_cons]
    simp only [List.length_cons, List.length_append, asn1PutObject, List.length_cons]
    omega

/-- The cell loop consumes a run of well-formed cell frames, dispatching each
content to its cell. -/
theorem parseCells_frames : ∀ (L : List (Nat × Bytes)) (row : DataRow) (fuel : Nat),
    (∀ p ∈ L, p.1 < 31) → L.length < fuel →
    parseCells fuel row (cellFrames L) =
      L.foldl (fun row p => appendCell row p.1 p.2) row := by
  intro L
  induction L with
  | nil =>
    intro row fuel _ hf
    rcases fuel with _ | f
    · omega
    · simp [parseCells, cellFrames]
  | cons p L ih =>
    intro row fuel htags hf
    rcases fuel with _ | f
    · omega
    · rw [cellFrames_cons, parseCells]
      have hne : ¬(asn1PutObject false 128 p.1 p.2.length ++ (p.2 ++ cellFrames L)).isEmpty := by
        simp [asn1PutObject]
      simp only [hne, if_false, Bool.false_eq_true]
      rw [getObject_putObject false 128 p.1 p.2.length (p.2 ++ cellFrames L) (Or.inr rfl)
        (htags p (by simp)) (by simp)]
      have hdrop : ((asn1PutObject false 128 p.1 p.2.length ++ (p.2 ++ cellFrames L)).drop
          (1 + (lenOctets p.2.length).length)) = p.2 ++ cellFrames L := by
        have hl : (asn1PutObject false 128 p.1 p.2.length).length =
            1 + (lenOctets p.2.length).length := by
          simp [asn1PutObject]
          omega
        rw [← hl, List.drop_left]
      simp only [and_self, if_true, hdrop]
      rw [List.take_left' rfl, List.drop_left' rfl]
      rw [List.foldl_cons]
      exact ih (appendCell row p.1 p.2) f (fun q hq => htags q (by simp [hq])) (by
        simp at hf ⊢
        omega)

/-- The second encode pass writes exactly the cell frames of the non-empty
cells. -/
theorem pieces_eq_cellFrames (r : DataRow) :
    (r.taggedCells.map fun p =>
        if p.2.isEmpty then [] else asn1PutObject false 128 p.1 p.2.length ++ p.2).flatten
      = cellFrames (r.taggedCells.filter fun p => !p.2.isEmpty) := by
  have main : ∀ L : List (Nat × Bytes),
      (L.map fun p =>
        if p.2.isEmpty then [] else asn1PutObject false 128 p.1 p.2.length ++ p.2).flatten
        = cellFrames (L.filter fun p => !p.2.isEmpty) := by
    intro L
    induction L with
    | nil => rfl
    | cons p L ih =>
      by_cases h : p.2.isEmpty
      · simp only [List.map_cons, List.flatten_cons, h, if_true, List.nil_append,
          List.filter_cons, Bool.not_true, Bool.false_eq_true, if_false]
        exact ih
      · simp only [List.map_cons, List.flatten_cons, h, if_false, Bool.false_eq_true,
          List.filter_cons, Bool.not_false, if_true, cellFrames_cons, ih, List.append_assoc]
  exact main r.taggedCells

/-- Folding the non-empty cells back into an empty row reproduces the row. -/
theorem fold_appendCell (r : DataRow) :
    (r.taggedCells.filter fun p => !p.2.isEmpty).foldl
        (fun row p => appendCell row p.1 p.2) emptyRow = r := by
  rcases r with ⟨s, l, p, c⟩
  by_cases hs : s.isEmpty <;> by_cases hl : l.isEmpty <;>
    by_cases hp : p.isEmpty <;> by_cases hc : c.isEmpty <;>
      simp_all [DataRow.taggedCells, List.isEmpty_iff, appendCell, emptyRow]

theorem putObject_length (c : Bool) (xclass tag len : Nat) :
    (asn1PutObject c xclass tag len).length = 1 + (lenOctets len).length := by
  simp [asn1PutObject]
  omega

/-- The declared record size matches the bytes written. -/
theorem cellFrames_length (r : DataRow) :
    (cellFrames (r.taggedCells.filter fun p => !p.2.isEmpty)).length = r.entryDataSize := by
  rcases r with ⟨s, l, p, c⟩
  by_cases hs : s.isEmpty <;> by_cases hl : l.isEmpty <;>
    by_cases hp : p.isEmpty <;> by_cases hc : c.isEmpty <;>
      simp_all [DataRow.taggedCells, List.isEmpty_iff, cellFrames, DataRow.entryDataSize,
        asn1ObjectSize, asn1PutObject] <;> omega

theorem rowBytes_length (r : DataRow) :
    r.rowBytes.length = asn1ObjectSize r.entryDataSize 17 := by
  rw [DataRow.rowBytes, List.length_append, pieces_eq_cellFrames, cellFrames_length,
    putObject_length, asn1ObjectSize]

/-- A record frame followed by anything parses back to the record and leaves
the rest intact. -/
theorem parseRow_rowBytes (r : DataRow) (rest : Bytes) :
    parseRow (r.rowBytes ++ rest) = (r, rest) := by
  rw [DataRow.rowBytes, pieces_eq_cellFrames]
  set pieces := cellFrames (r.taggedCells.filter fun p => !p.2.isEmpty) with hpieces
  have hlen : pieces.length = r.entryDataSize := cellFrames_length r
  rw [List.append_assoc, parseRow,
    getObject_putObject true 0 17 r.entryDataSize (pieces ++ rest) (Or.inl rfl) (by omega)
      (by simp [hlen])]
  simp only [and_self, if_true]
  have hdrop : ((asn1PutObject true 0 17 r.entryDataSize ++ (pieces ++ rest)).drop
      (1 + (lenOctets r.entryDataSize).length)) = pieces ++ rest := by
    rw [← putObject_length true 0 17 r.entryDataSize, List.drop_left]
  rw [hdrop, List.take_left' hlen, List.drop_left' hlen]
  rw [parseCells_frames _ emptyRow _ ?tags ?fuel]
  · rw [fold_appendCell]
  case tags =>
    intro p hp
    have : p ∈ r.taggedCells := List.mem_of_mem_filter hp
    rcases r with ⟨s, l, pw, c⟩
    simp [DataRow.taggedCells] at this
    rcases this with h | h | h | h <;> rw [h] <;> omega
  case fuel =>
    have := length_le_cellFrames (r.taggedCells.filter fun p => !p.2.isEmpty)
    rw [← hpieces] at this
    omega

theorem rowBytes_ne_nil (r : DataRow) : r.rowBytes ≠ [] := by
  rw [DataRow.rowBytes, asn1PutObject]
  simp

/-- The row loop recovers a concatenation of record frames. -/
theorem parseRows_frames : ∀ (rows : List DataRow) (fuel : Nat), rows.length < fuel →
    parseRows fuel ((rows.map DataRow.rowBytes).flatten) = rows := by
  intro rows
  induction rows with
  | nil =>
    intro fuel hf
    rcases fuel with _ | f
    · omega
    · simp [parseRows]
  | cons r rs ih =>
    intro fuel hf
    rcases fuel with _ | f
    · omega
    · rw [List.map_cons, List.flatten_cons, parseRows]
      have hne : ¬(r.rowBytes ++ (rs.map DataRow.rowBytes).flatten).isEmpty := by
        simp [rowBytes_ne_nil r]
      simp only [hne, if_false, Bool.false_eq_true, parseRow_rowBytes]
      rw [ih f (by simp at hf ⊢; omega)]

theorem length_le_flatten_rowBytes (rows : List DataRow) :
    rows.length ≤ ((rows.map DataRow.rowBytes).flatten).length := by
  induction rows with
  | nil => simp
  | cons r rs ih =>
    rw [List.map_cons, List.flatten_cons, List.length_append]
    have : 1 ≤ r.rowBytes.length := by
      rcases h : r.rowBytes with _ | _
      · exact absurd h (rowBytes_ne_nil r)
      · simp
    simp only [List.length_cons]
    omega

/-- Serializing a store of rows that all have a non-empty cell and decoding
the result recovers the store (before the final multiset re-insertion). -/
theorem decodeSequence_encodeSequence (rows : List DataRow)
    (h : ∀ r ∈ rows, r.entryDataSize ≠ 0) :
    decodeSequence (encodeSequence rows) = some (storeRows rows) := by
  have hmap : (rows.map fun r => if r.entryDataSize = 0 then [] else r.rowBytes)
      = rows.map DataRow.rowBytes := by
    apply List.map_congr_left
    intro r hr
    simp [h r hr]
  have hsz : sequenceInnerSize rows = ((rows.map DataRow.rowBytes).flatten).length := by
    rw [List.length_flatten, List.map_map, sequenceInnerSize]
    congr 1
    apply List.map_congr_left
    intro r hr
    simp only [Function.comp_apply, rowBytes_length]
    simp [DataRow.encode, h r hr]
  rw [encodeSequence, hmap, decodeSequence]
  rw [getObject_putObject true 0 16 (sequenceInnerSize rows)
    ((rows.map DataRow.rowBytes).flatten) (Or.inl rfl) (by omega) (le_of_eq hsz)]
  have hspan : 1 + (lenOctets (sequenceInnerSize rows)).length + sequenceInnerSize rows =
      (asn1PutObject true 0 16 (sequenceInnerSize rows) ++
        (rows.map DataRow.rowBytes).flatten).length := by
    rw [List.length_append, putObject_length, hsz]
  simp only [true_and, hspan, if_true, and_true, if_pos rfl]
  have hdrop : ((asn1PutObject true 0 16 (sequenceInnerSize rows) ++
      (rows.map DataRow.rowBytes).flatten).drop
        (1 + (lenOctets (sequenceInnerSize rows)).length)) =
      (rows.map DataRow.rowBytes).flatten := by
    rw [← putObject_length true 0 16 (sequenceInnerSize rows), List.drop_left]
  rw [hdrop, parseRows_frames rows _ ?fuel]
  case fuel =>
    have h1 := length_le_flatten_rowBytes rows
    have h2 : ((rows.map DataRow.rowBytes).flatten).length ≤
        (asn1PutObject true 0 16 (sequenceInnerSize rows) ++
          (rows.map DataRow.rowBytes).flatten).length := by
      simp
    omega

/-! ## NUL-free cells: the code order coincides with the spec order -/

/-- No cell of the record contains a NUL byte. -/
def NulFree (r : DataRow) : Prop :=
  0 ∉ r.service ∧ 0 ∉ r.login ∧ 0 ∉ r.password ∧ 0 ∉ r.comment

instance (r : DataRow) : Decidable (NulFree r) := by
  unfold NulFree
  infer_instance

theorem cString_eq_self {a : Bytes} (h : 0 ∉ a) : cString a = a := by
  induction a with
  | nil => rfl
  | cons x xs ih =>
    simp only [List.mem_cons, not_or] at h
    simp only [cString, List.takeWhile_cons] at ih ⊢
    have hx : x ≠ 0 := fun hz => h.1 hz.symm
    simp [hx]
    intro y hy hz
    exact h.2 (hz ▸ hy)

theorem cKey_eq_rawKey {r : DataRow} (h : NulFree r) : cKey r = rawKey r := by
  obtain ⟨h1, h2, h3, h4⟩ := h
  simp [cKey, rawKey, cString_eq_self, h1, h2, h3, h4]

theorem tupCmp_lt_iff_tupLexLt {a b : Bytes × Bytes × Bytes × Bytes} :
    tupCmp a b = .lt ↔ tupLexLt a b := by
  obtain ⟨a1, a2, a3, a4⟩ := a
  obtain ⟨b1, b2, b3, b4⟩ := b
  simp [tupCmp, cmp3, cmp2, then_eq_lt, bytesCmp_eq_iff, bytesCmp_lt_iff_lex, tupLexLt]

/-- On NUL-free records, the store's pairwise order implies the spec's
byte-wise lexicographic order. -/
theorem rowLe_spec {a b : DataRow} (ha : NulFree a) (hb : NulFree b) (h : rowLe a b) :
    specRowLe a b := by
  rw [rowLe_iff] at h
  rcases hc : tupCmp (cKey a) (cKey b)
  · left
    rw [specRowLt, ← cKey_eq_rawKey ha, ← cKey_eq_rawKey hb, ← tupCmp_lt_iff_tupLexLt]
    exact hc
  · right
    rw [← cKey_eq_rawKey ha, ← cKey_eq_rawKey hb]
    exact tupCmp_eq_iff.mp hc
  · exact absurd hc h

/-- `encode` skips exactly the all-empty records. -/
theorem entryDataSize_eq_zero_iff (r : DataRow) :
    r.entryDataSize = 0 ↔ r.service = [] ∧ r.login = [] ∧ r.password = [] ∧ r.comment = [] := by
  rcases r with ⟨s, l, p, c⟩
  by_cases hs : s.isEmpty <;> by_cases hl : l.isEmpty <;>
    by_cases hp : p.isEmpty <;> by_cases hc : c.isEmpty <;>
      simp_all [DataRow.entryDataSize, DataRow.taggedCells, List.isEmpty_iff, asn1ObjectSize]

/-! ## Entropy pool invariant -/

/-- Every limb fits in 32 bits. -/
def limbsLt (pool : Bytes) : Prop := ∀ x ∈ pool, x < 2 ^ 32

/-- The partially consumed top limb has its already-read high bits masked to
zero: it is below 2 to the number of its unread bits. -/
def topLt (pool : Bytes) (poolSize : Nat) : Prop :=
  poolSize = 0 ∨ limbGet pool ((poolSize - 1) / 32) < 2 ^ (poolSize - (poolSize - 1) / 32 * 32)

/-- Well-formed randomizer state: an 8-limb pool of 32-bit limbs, at most 256
unread bits, masked top limb, and well-formed refill blocks. -/
def WF (s : RandState) : Prop :=
  s.pool.length = 8 ∧ limbsLt s.pool ∧ s.poolSize ≤ 256 ∧ topLt s.pool s.poolSize ∧
    ∀ bl ∈ s.stream, bl.length = 8 ∧ limbsLt bl

instance (pool : Bytes) : Decidable (limbsLt pool) := by
  unfold limbsLt
  infer_instance

instance (pool : Bytes) (poolSize : Nat) : Decidable (topLt pool poolSize) := by
  unfold topLt
  infer_instance

instance (s : RandState) : Decidable (WF s) := by
  unfold WF
  infer_instance

theorem limbGet_lt {pool : Bytes} (h : limbsLt pool) (i : Nat) : limbGet pool i < 2 ^ 32 := by
  unfold limbGet
  rw [List.getD_eq_getElem?_getD]
  rcases h2 : pool[i]? with _ | x
  · exact Nat.pos_pow_of_pos 32 (by omega)
  · have hx : x ∈ pool := by
      obtain ⟨hlt, hval⟩ := List.getElem?_eq_some.mp h2
      exact hval ▸ List.getElem_mem hlt
    exact h x hx

theorem limbGet_set_self {pool : Bytes} {i : Nat} (v : Nat) (hi : i < pool.length) :
    limbGet (pool.set i v) i = v := by
  unfold limbGet
  rw [List.getD_eq_getElem?_getD, List.getElem?_set_eq_of_lt v hi]
  rfl

/-- Core invariant of the `getBits` draw loop: under the masked-pool
invariant, with the shift-accumulation discipline the code maintains (a
non-zero accumulator only when the rest of the request fits in the top limb),
the loop yields a value below 2^(k + count), consumes exactly `count` bits,
and re-establishes the masked-pool invariant. -/
theorem getBitsLoop_sound :
    ∀ (fuel count res : Nat) (pool : Bytes) (poolSize k : Nat),
      count ≤ fuel →
      count ≤ poolSize →
      count ≤ 32 → k + count ≤ 32 →
      limbsLt pool →
      topLt pool poolSize →
      res < 2 ^ k →
      (count ≠ 0 → res = 0 ∨ k + count ≤ poolSize - (poolSize - 1) / 32 * 32) →
      (getBitsLoop fuel count res pool poolSize).1 < 2 ^ (k + count) ∧
      (getBitsLoop fuel count res pool poolSize).2.1.length = pool.length ∧
      limbsLt (getBitsLoop fuel count res pool poolSize).2.1 ∧
      (getBitsLoop fuel count res pool poolSize).2.2 = poolSize - count ∧
      topLt (getBitsLoop fuel count res pool poolSize).2.1 (poolSize - count) := by
  intro fuel
  induction fuel with
  | zero =>
    intro count res pool poolSize k hfuel hcp h32 hk32 hlimbs htop hres _hdisj
    have hc0 : count = 0 := by omega
    subst hc0
    refine ⟨?_, rfl, hlimbs, rfl, ?_⟩
    · calc res < 2 ^ k := hres
        _ ≤ 2 ^ (k + 0) := by simp
    · simpa using htop
  | succ f ih =>
    intro count res pool poolSize k hfuel hcp h32 hk32 hlimbs htop hres hdisj
    by_cases hc0 : count = 0
    · subst hc0
      have hstep : getBitsLoop (f + 1) 0 res pool poolSize = (res, pool, poolSize) := rfl
      rw [hstep]
      refine ⟨?_, rfl, hlimbs, rfl, by simpa using htop⟩
      calc res < 2 ^ k := hres
        _ ≤ 2 ^ (k + 0) := by simp
    · have hps1 : 1 ≤ poolSize := by omega
      have hrem1 : 1 ≤ poolSize - (poolSize - 1) / 32 * 32 := by omega
      have hrem32 : poolSize - (poolSize - 1) / 32 * 32 ≤ 32 := by omega
      have htopv : limbGet pool ((poolSize - 1) / 32) <
          2 ^ (poolSize - (poolSize - 1) / 32 * 32) := by
        rcases htop with h | h
        · omega
        · exact h
      have hremne : ¬(poolSize - (poolSize - 1) / 32 * 32 = 0) := by omega
      simp only [getBitsLoop, hc0, hremne, if_false]
      by_cases hbr : poolSize - (poolSize - 1) / 32 * 32 ≤ count
      · -- the whole top limb is consumed and the loop continues
        simp only [hbr, if_true]
        have hres0 : res = 0 := by
          rcases hdisj hc0 with h | h
          · exact h
          · have hk0 : k = 0 := by omega
            subst hk0
            omega
        subst hres0
        simp only [Nat.zero_shiftLeft, Nat.zero_mod, Nat.zero_or]
        have hnext := ih (count - (poolSize - (poolSize - 1) / 32 * 32))
          (limbGet pool ((poolSize - 1) / 32)) pool
          (poolSize - (poolSize - (poolSize - 1) / 32 * 32))
          (poolSize - (poolSize - 1) / 32 * 32)
          (by omega) (by omega) (by omega) (by omega) hlimbs
          ?topnext htopv ?disjnext
        · obtain ⟨hv, hlen, hl, hsz, ht⟩ := hnext
          refine ⟨?_, hlen, hl, by omega, ?_⟩
          · calc (getBitsLoop f _ _ pool _).1
                < 2 ^ (poolSize - (poolSize - 1) / 32 * 32 +
                    (count - (poolSize - (poolSize - 1) / 32 * 32))) := hv
              _ ≤ 2 ^ (k + count) := by
                  apply Nat.pow_le_pow_right (by omega)
                  omega
          · have : poolSize - (poolSize - (poolSize - 1) / 32 * 32) -
                (count - (poolSize - (poolSize - 1) / 32 * 32)) = poolSize - count := by
              omega
            rw [this] at ht
            exact ht
        case topnext =>
          -- after consuming the top limb the pool sits on a 32-bit boundary
          by_cases hz : poolSize - (poolSize - (poolSize - 1) / 32 * 32) = 0
          · exact Or.inl hz
          · right
            have hdiv : (poolSize - (poolSize - (poolSize - 1) / 32 * 32) - 1) / 32 =
                (poolSize - 1) / 32 - 1 := by omega
            have hrem : poolSize - (poolSize - (poolSize - 1) / 32 * 32) -
                (poolSize - (poolSize - (poolSize - 1) / 32 * 32) - 1) / 32 * 32 = 32 := by
              omega
            rw [hrem, hdiv]
            exact limbGet_lt hlimbs _
        case disjnext =>
          intro hcnz
          right
          have hdiv : (poolSize - (poolSize - (poolSize - 1) / 32 * 32) - 1) / 32 =
              (poolSize - 1) / 32 - 1 := by omega
          rw [hdiv]
          omega
      · -- the request fits strictly inside the top limb: terminal step
        simp only [hbr, if_false]
        have hshl : res <<< count = res * 2 ^ count := Nat.shiftLeft_eq res count
        have hlt : res * 2 ^ count < 2 ^ (k + count) := by
          calc res * 2 ^ count < 2 ^ k * 2 ^ count :=
                (Nat.mul_lt_mul_right (Nat.pos_pow_of_pos count (by omega))).mpr hres
            _ = 2 ^ (k + count) := by rw [← pow_add]
        have hmod : (res <<< count) % 2 ^ 32 = res * 2 ^ count := by
          rw [hshl]
          apply Nat.mod_eq_of_lt
          calc res * 2 ^ count < 2 ^ (k + count) := hlt
            _ ≤ 2 ^ 32 := Nat.pow_le_pow_right (by omega) hk32
        have hshr : limbGet pool ((poolSize - 1) / 32) >>>
            (poolSize - (poolSize - 1) / 32 * 32 - count) < 2 ^ count := by
          rw [Nat.shiftRight_eq_div_pow]
          apply Nat.div_lt_of_lt_mul
          calc limbGet pool ((poolSize - 1) / 32)
              < 2 ^ (poolSize - (poolSize - 1) / 32 * 32) := htopv
            _ ≤ 2 ^ (poolSize - (poolSize - 1) / 32 * 32 - count) * 2 ^ count := by
                rw [← pow_add]
                apply Nat.pow_le_pow_right (by omega)
                omega
        refine ⟨?_, ?_, ?_, ?_, ?_⟩
        · show ((res <<< count) % 2 ^ 32) |||
              (limbGet pool ((poolSize - 1) / 32) >>>
                (poolSize - (poolSize - 1) / 32 * 32 - count)) < 2 ^ (k + count)
          rw [hmod]
          apply Nat.or_lt_two_pow hlt
          calc limbGet pool ((poolSize - 1) / 32) >>>
              (poolSize - (poolSize - 1) / 32 * 32 - count) < 2 ^ count := hshr
            _ ≤ 2 ^ (k + count) := Nat.pow_le_pow_right (by omega) (by omega)
        · show (pool.set ((poolSize - 1) / 32) _).length = pool.length
          exact List.length_set pool _ _
        · show limbsLt (pool.set ((poolSize - 1) / 32) _)
          intro x hx
          rcases List.mem_or_eq_of_mem_set hx with hx | hx
          · exact hlimbs x hx
          · subst hx
            calc limbGet pool ((poolSize - 1) / 32) %
                2 ^ (poolSize - (poolSize - 1) / 32 * 32 - count)
                ≤ limbGet pool ((poolSize - 1) / 32) := Nat.mod_le _ _
              _ < 2 ^ 32 := limbGet_lt hlimbs _
        · trivial
        · show topLt (pool.set ((poolSize - 1) / 32) _) (poolSize - count)
          right
          have hdiv : (poolSize - count - 1) / 32 = (poolSize - 1) / 32 := by omega
          have hrem : poolSize - count - (poolSize - count - 1) / 32 * 32 =
              poolSize - (poolSize - 1) / 32 * 32 - count := by omega
          rw [hrem, hdiv]
          by_cases hib : (poolSize - 1) / 32 < pool.length
          · rw [limbGet_set_self _ hib]
            exact Nat.mod_lt _ (Nat.pos_pow_of_pos _ (by omega))
          · unfold limbGet
            rw [List.getD_eq_getElem?_getD,
              List.getElem?_eq_none (by simpa using hib)]
            exact Nat.pos_pow_of_pos _ (by omega)

/-- Complete behaviour of one draw: with fewer than `n` bits obtainable the
CSPRNG refusal surfaces as a failure (with the bit counter zeroed, as in the
source); otherwise the draw succeeds, the value fits in `n` bits, the state
stays well-formed, and exactly `n` bits are consumed. -/
theorem getBits_spec {n : Nat} {s : RandState} (h1 : 1 ≤ n) (h32 : n ≤ 32) (hwf : WF s) :
    (avail s < n → getBits n s = (none, { s with poolSize := 0 })) ∧
    (n ≤ avail s → ∃ v s', getBits n s = (some v, s') ∧ v < 2 ^ n ∧ WF s' ∧
      avail s' = avail s - n) := by
  obtain ⟨hlen, hlimbs, hps, htop, hstream⟩ := hwf
  constructor
  · intro hav
    have hempty : s.stream = [] := by
      rcases hs : s.stream with _ | ⟨b, r⟩
      · rfl
      · exfalso
        unfold avail at hav
        rw [hs] at hav
        simp only [List.length_cons] at hav
        omega
    have hlt : s.poolSize < n := by
      unfold avail at hav
      omega
    rw [getBits]
    simp only [show n > s.poolSize from hlt, if_true, hempty]
  · intro hav
    by_cases hfit : n ≤ s.poolSize
    · -- served from the current pool
      have hloop := getBitsLoop_sound n n 0 s.pool s.poolSize 0
        le_rfl hfit h32 (by omega) hlimbs htop (by omega) (fun _ => Or.inl rfl)
      obtain ⟨hv, hlen', hlimbs', hsz, htop'⟩ := hloop
      refine ⟨(getBitsLoop n n 0 s.pool s.poolSize).1,
        ⟨(getBitsLoop n n 0 s.pool s.poolSize).2.1,
         (getBitsLoop n n 0 s.pool s.poolSize).2.2, s.stream⟩, ?_, ?_, ?_, ?_⟩
      · rw [getBits]
        simp only [show ¬(n > s.poolSize) by omega, if_false]
      · simpa using hv
      · refine ⟨?_, hlimbs', ?_, ?_, hstream⟩
        · show (getBitsLoop n n 0 s.pool s.poolSize).2.1.length = 8
          rw [hlen', hlen]
        · show (getBitsLoop n n 0 s.pool s.poolSize).2.2 ≤ 256
          rw [hsz]
          omega
        · show topLt _ (getBitsLoop n n 0 s.pool s.poolSize).2.2
          rw [hsz]
          exact htop'
      · show (getBitsLoop n n 0 s.pool s.poolSize).2.2 + 256 * s.stream.length =
          avail s - n
        rw [hsz]
        unfold avail
        omega
    · -- refill needed
      rcases hs : s.stream with _ | ⟨block, rest⟩
      · exfalso
        unfold avail at hav
        rw [hs] at hav
        simp only [List.length_nil] at hav
        omega
      · obtain ⟨hb8, hblimbs⟩ := hstream block (by rw [hs]; simp)
        have hres : limbGet s.pool 0 % 2 ^ s.poolSize < 2 ^ s.poolSize :=
          Nat.mod_lt _ (Nat.pos_pow_of_pos _ (by omega))
        have htopblock : topLt block 256 := by
          right
          have hd : (256 - 1) / 32 = 7 := by norm_num
          rw [hd]
          have hr : 256 - 7 * 32 = 32 := by norm_num
          rw [hr]
          exact limbGet_lt hblimbs 7
        have hloop := getBitsLoop_sound (n - s.poolSize) (n - s.poolSize)
          (limbGet s.pool 0 % 2 ^ s.poolSize) block 256 s.poolSize
          le_rfl (by omega) (by omega) (by omega) hblimbs htopblock hres
          (fun _ => Or.inr (by
            have hd : (256 - 1) / 32 = 7 := by norm_num
            rw [hd]
            omega))
        obtain ⟨hv, hlen', hlimbs', hsz, htop'⟩ := hloop
        refine ⟨(getBitsLoop (n - s.poolSize) (n - s.poolSize)
            (limbGet s.pool 0 % 2 ^ s.poolSize) block 256).1,
          ⟨(getBitsLoop (n - s.poolSize) (n - s.poolSize)
            (limbGet s.pool 0 % 2 ^ s.poolSize) block 256).2.1,
           (getBitsLoop (n - s.poolSize) (n - s.poolSize)
            (limbGet s.pool 0 % 2 ^ s.poolSize) block 256).2.2, rest⟩, ?_, ?_, ?_, ?_⟩
        · rw [getBits]
          simp only [show n > s.poolSize by omega, if_true, hs]
        · calc (getBitsLoop (n - s.poolSize) (n - s.poolSize)
              (limbGet s.pool 0 % 2 ^ s.poolSize) block 256).1
              < 2 ^ (s.poolSize + (n - s.poolSize)) := hv
            _ = 2 ^ n := by congr 1; omega
        · refine ⟨?_, hlimbs', ?_, ?_, ?_⟩
          · show (getBitsLoop (n - s.poolSize) (n - s.poolSize)
              (limbGet s.pool 0 % 2 ^ s.poolSize) block 256).2.1.length = 8
            rw [hlen', hb8]
          · show (getBitsLoop (n - s.poolSize) (n - s.poolSize)
              (limbGet s.pool 0 % 2 ^ s.poolSize) block 256).2.2 ≤ 256
            rw [hsz]
            omega
          · show topLt _ (getBitsLoop (n - s.poolSize) (n - s.poolSize)
              (limbGet s.pool 0 % 2 ^ s.poolSize) block 256).2.2
            rw [hsz]
            exact htop'
          · intro bl hbl
            exact hstream bl (by rw [hs]; simp [hbl])
        · show (getBitsLoop (n - s.poolSize) (n - s.poolSize)
              (limbGet s.pool 0 % 2 ^ s.poolSize) block 256).2.2 + 256 * rest.length =
            avail s - n
          rw [hsz]
          unfold avail
          rw [hs]
          simp only [List.length_cons]
          omega

/-- Pool soundness at the `getBits` interface, as the claims use it. -/
theorem getBits_sound {n : Nat} {s : RandState} {v : Nat} {s' : RandState}
    (h1 : 1 ≤ n) (h32 : n ≤ 32) (hwf : WF s) (h : getBits n s = (some v, s')) :
    v < 2 ^ n ∧ WF s' := by
  obtain ⟨hnone, hsome⟩ := getBits_spec h1 h32 hwf
  by_cases hav : n ≤ avail s
  · obtain ⟨v', s'', heq, hvb, hwf', _⟩ := hsome hav
    rw [heq] at h
    have hv : v' = v := by
      have := congrArg Prod.fst h
      simpa using this
    have hst : s'' = s' := by
      have := congrArg Prod.snd h
      simpa using this
    subst hv
    subst hst
    exact ⟨hvb, hwf'⟩
  · rw [hnone (by omega)] at h
    simp at h

/-! ## Generator lemmas -/

/-- Every password character is drawn with 6 bits and indexes the 64-symbol
alphabet in bounds. -/
theorem makePassword_chars : ∀ (len : Nat) (s : RandState), WF s →
    ∀ c ∈ (makePassword len s).1, c ∈ passwordCharSet := by
  intro len
  induction len with
  | zero =>
    intro s _ c hc
    simp [makePassword] at hc
  | succ l ih =>
    intro s hwf c hc
    rw [makePassword] at hc
    rcases hg : getBits 6 s with ⟨ov, s1⟩
    rw [hg] at hc
    rcases ov with _ | t
    · simp at hc
    · obtain ⟨hvb, hwf'⟩ := getBits_sound (by omega) (by omega) hwf hg
      simp only [List.mem_cons] at hc
      rcases hc with hc | hc
      · subst hc
        have hlt : t < passwordCharSet.length := hvb
        rw [List.getD_eq_getElem?_getD, List.getElem?_eq_getElem hlt]
        exact List.getElem_mem hlt
      · exact ih s1 hwf' c hc

/-- With enough pool bits, `makePassword` delivers the full length; once the
pool runs dry it stops with exactly the prefix the completed draws funded. -/
theorem makePassword_length : ∀ (len : Nat) (s : RandState), WF s →
    (makePassword len s).1.length = min len (avail s / 6) := by
  intro len
  induction len with
  | zero =>
    intro s _
    simp [makePassword]
  | succ l ih =>
    intro s hwf
    obtain ⟨hnone, hsome⟩ := getBits_spec (n := 6) (by omega) (by omega) hwf
    rw [makePassword]
    by_cases hav : 6 ≤ avail s
    · obtain ⟨v, s', heq, _, hwf', havail⟩ := hsome hav
      rw [heq]
      simp only [List.length_cons, ih s' hwf', havail]
      omega
    · rw [hnone (by omega)]
      simp only [List.length_nil]
      omega

/-- Every hex character pair is emitted low nibble first, then high. -/
theorem makeHexBlock_step (b : Nat) (s : RandState) (t : Nat) (s' : RandState)
    (hg : getBits 8 s = (some t, s')) :
    (makeHexBlock (b + 1) s).1 =
      hexCharSet.getD (t % 16) 'X' :: hexCharSet.getD (t / 16) 'X' ::
        (makeHexBlock b s').1 := by
  rw [makeHexBlock, hg]
  show hexCharSet.getD (t &&& 15) 'X' :: hexCharSet.getD (t >>> 4) 'X' ::
      (makeHexBlock b s').1 =
    hexCharSet.getD (t % 16) 'X' :: hexCharSet.getD (t / 16) 'X' :: (makeHexBlock b s').1
  rw [show t &&& 15 = t % 16 from Nat.and_pow_two_sub_one_eq_mod t 4,
    show t >>> 4 = t / 16 from by rw [Nat.shiftRight_eq_div_pow]]

theorem makeHexBlock_chars : ∀ (b : Nat) (s : RandState), WF s →
    ∀ c ∈ (makeHexBlock b s).1, c ∈ hexCharSet := by
  intro b
  induction b with
  | zero =>
    intro s _ c hc
    simp [makeHexBlock] at hc
  | succ k ih =>
    intro s hwf c hc
    rw [makeHexBlock] at hc
    rcases hg : getBits 8 s with ⟨ov, s1⟩
    rw [hg] at hc
    rcases ov with _ | t
    · simp at hc
    · obtain ⟨hvb, hwf'⟩ := getBits_sound (by omega) (by omega) hwf hg
      simp only [List.mem_cons] at hc
      have hmem : ∀ i : Nat, i < 16 → hexCharSet.getD i 'X' ∈ hexCharSet := by
        intro i hi
        have hlt : i < hexCharSet.length := hi
        rw [List.getD_eq_getElem?_getD, List.getElem?_eq_getElem hlt]
        exact List.getElem_mem hlt
      rcases hc with hc | hc | hc
      · subst hc
        exact hmem _ (by
          rw [show t &&& 15 = t % 16 from Nat.and_pow_two_sub_one_eq_mod t 4]
          omega)
      · subst hc
        exact hmem _ (by
          rw [show t >>> 4 = t / 16 from by rw [Nat.shiftRight_eq_div_pow]]
          omega)
      · exact ih s1 hwf' c hc

theorem makeHexBlock_length : ∀ (b : Nat) (s : RandState), WF s →
    (makeHexBlock b s).1.length = 2 * min b (avail s / 8) := by
  intro b
  induction b with
  | zero =>
    intro s _
    simp [makeHexBlock]
  | succ k ih =>
    intro s hwf
    obtain ⟨hnone, hsome⟩ := getBits_spec (n := 8) (by omega) (by omega) hwf
    rw [makeHexBlock]
    by_cases hav : 8 ≤ avail s
    · obtain ⟨v, s', heq, _, hwf', havail⟩ := hsome hav
      rw [heq]
      simp only [List.length_cons, ih s' hwf', havail]
      omega
    · rw [hnone (by omega)]
      simp only [List.length_nil]
      omega

theorem pinBlocks_length : ∀ (b : Nat) (s : RandState), (pinBlocks b s).1.length = 4 * b := by
  intro b
  induction b with
  | zero =>
    intro s
    simp [pinBlocks]
  | succ k ih =>
    intro s
    rw [pinBlocks]
    simp only [List.length_append, ih, fourDigits, List.length_cons, List.length_nil]
    omega

theorem makePin_length (len : Nat) (s : RandState) : (makePin len s).1.length = len := by
  rw [makePin]
  simp only [List.length_take, pinBlocks_length]
  omega

theorem digit_isDigit {d : Nat} (h : d < 10) : (Char.ofNat (48 + d)).isDigit = true := by
  interval_cases d <;> decide

theorem fourDigits_digits (t : Nat) : ∀ c ∈ fourDigits t, c.isDigit = true := by
  intro c hc
  simp only [fourDigits, List.mem_cons] at hc
  rcases hc with hc | hc | hc | hc | hc
  · exact hc ▸ digit_isDigit (Nat.mod_lt _ (by omega))
  · exact hc ▸ digit_isDigit (Nat.mod_lt _ (by omega))
  · exact hc ▸ digit_isDigit (Nat.mod_lt _ (by omega))
  · exact hc ▸ digit_isDigit (Nat.mod_lt _ (by omega))
  · simp at hc

theorem pinBlocks_digits : ∀ (b : Nat) (s : RandState),
    ∀ c ∈ (pinBlocks b s).1, c.isDigit = true := by
  intro b
  induction b with
  | zero =>
    intro s c hc
    simp [pinBlocks] at hc
  | succ k ih =>
    intro s c hc
    rw [pinBlocks] at hc
    simp only [List.mem_append] at hc
    rcases hc with hc | hc
    · exact fourDigits_digits _ c hc
    · exact ih _ c hc

theorem makePin_digits (len : Nat) (s : RandState) :
    ∀ c ∈ (makePin len s).1, c.isDigit = true := by
  intro c hc
  rw [makePin] at hc
  exact pinBlocks_digits _ s c (List.mem_of_mem_take hc)

/-! ## Claim theorems -/

/-- Two records whose service cells differ only after an embedded NUL byte:
the store cannot tell them apart. -/
def c1a : DataRow := ⟨[97, 0, 98], [], [], []⟩

/-- Byte-wise strictly smaller than `c1a`, yet `strcmp`-equal to it. -/
def c1b : DataRow := ⟨[97, 0, 97], [], [], []⟩

/-- C1 counterexample: with an embedded NUL byte the round trip preserves the
multiset but the result is NOT ordered by the byte-wise lexicographic 4-cell
key: `c1b` is strictly smaller byte-wise yet is emitted after `c1a`, because
`operator<` compares with `strcmp` and stops at the NUL. -/
theorem C1_counterexample :
    decodeSequence (encodeSequence (storeRows [c1a, c1b])) = some [c1a, c1b] ∧
    specRowLt c1b c1a ∧ ¬ List.Pairwise specRowLe [c1a, c1b] := by decide

/-- C1 (amended: cells NUL-free): encoding a record set as `writeDbFile` does
and decoding the result as `readDbFile` does yields exactly the canonicalized
set — ordered by the byte-wise lexicographic 4-cell key, duplicates
preserved, nothing dropped — provided every record has at least one non-empty
cell and no cell contains a NUL byte. -/
theorem C1_roundtrip (R : List DataRow)
    (hne : ∀ r ∈ R, ¬(r.service = [] ∧ r.login = [] ∧ r.password = [] ∧ r.comment = []))
    (hnul : ∀ r ∈ R, NulFree r) :
    decodeSequence (encodeSequence (storeRows R)) = some (storeRows R) ∧
    (storeRows R).Perm R ∧ List.Pairwise specRowLe (storeRows R) := by
  have hsorted := storeRows_sorted R
  have hperm := storeRows_perm R
  refine ⟨?_, hperm, ?_⟩
  · have h1 : ∀ r ∈ storeRows R, r.entryDataSize ≠ 0 := by
      intro r hr
      rw [ne_eq, entryDataSize_eq_zero_iff]
      exact hne r (hperm.mem_iff.mp hr)
    rw [decodeSequence_encodeSequence _ h1, storeRows_of_sorted hsorted]
  · refine List.Pairwise.imp_of_mem ?_ hsorted
    intro a b ha hb h
    exact rowLe_spec (hnul a (hperm.mem_iff.mp ha)) (hnul b (hperm.mem_iff.mp hb)) h

/-- A concrete record set for the C1 witness. -/
def c1w1 : DataRow := ⟨[103, 109], [117], [112], []⟩

/-- A second concrete record, byte-wise smaller than `c1w1`. -/
def c1w2 : DataRow := ⟨[97], [98], [], [99]⟩

theorem C1_roundtrip_witness :
    decodeSequence (encodeSequence (storeRows [c1w1, c1w2])) = some (storeRows [c1w1, c1w2]) ∧
    (storeRows [c1w1, c1w2]).Perm [c1w1, c1w2] ∧
    List.Pairwise specRowLe (storeRows [c1w1, c1w2]) :=
  C1_roundtrip [c1w1, c1w2] (by decide) (by decide)

/-- C2: whenever `readDbFile` reports failure — the file cannot be opened,
decryption fails, or the outer sequence frame is invalid or does not span the
plaintext exactly — the in-memory record set is untouched and a non-empty
error string is set; the set is replaced only on the success path. -/
theorem C2_read_failure_atomic (readResult : Option Bytes)
    (decryptFn : Bytes → Option Bytes) (st : EngineState)
    (h : (readDbFile readResult decryptFn st).1 = false) :
    (readDbFile readResult decryptFn st).2.data = st.data ∧
    (readDbFile readResult decryptFn st).2.errorDescription ≠ "" := by
  rcases readResult with _ | content
  · exact ⟨rfl, by simp [readDbFile]⟩
  · rcases hd : decryptFn content with _ | plain
    · refine ⟨?_, ?_⟩ <;> simp [readDbFile, hd]
    · rcases hq : decodeSequence plain with _ | rows
      · refine ⟨?_, ?_⟩ <;> simp [readDbFile, hd, hq]
      · exfalso
        rw [readDbFile] at h
        simp [hd, hq] at h

/-- A concrete prior store for the C2 witness. -/
def c2row : DataRow := ⟨[115], [117], [112], [99]⟩

theorem C2_witness :
    (readDbFile none (fun _ => none) ⟨[c2row], ""⟩).2.data =
      (⟨[c2row], ""⟩ : EngineState).data ∧
    (readDbFile none (fun _ => none) ⟨[c2row], ""⟩).2.errorDescription ≠ "" :=
  C2_read_failure_atomic none (fun _ => none) ⟨[c2row], ""⟩ (by decide)

/-- Pool state delivering the draw trace 0, 12, 0, 5, 0, 5, 0 to `makeName`:
consonant "n", 4-bit t = 12 (additional-consonant branch), replacement
consonant "n", fresh t = 5, vowel "e", t = 5, empty word ending. -/
def sName : RandState := ⟨[0, 0, 0, 0, 0, 20480, 1280, 192], 256, []⟩

/-- C3: the code draws the replacement consonant and a fresh 4-bit value in
the `t ≥ 12` branch but never appends the replacement to the output — the
variable holding it is overwritten by the vowel draw.  On the trace above the
claim (and the generation scheme documented in the source) expects "nne";
the code produces "ne". -/
theorem C3_additional_consonant_dropped :
    (makeName 1 1 sName).1 = "ne" ∧ (makeName 1 1 sName).1 ≠ "nne" := by decide

/-- Pool state with exactly 6 bits available and a refusing CSPRNG. -/
def sP : RandState := ⟨[0, 0, 0, 0, 0, 0, 0, 0], 6, []⟩

/-- C4 counterexample: requesting 2 password characters from a pool holding
6 bits, the first draw succeeds and the second hits a CSPRNG refill failure —
yet the result is the 1-character partial prefix "A", not the empty string
the claim requires. -/
theorem C4_counterexample :
    (getBits 6 ((getBits 6 sP).2)).1 = none ∧
    (makePassword 2 sP).1 = ['A'] ∧ (['A'] : List Char) ≠ [] := by decide

/-- C4 (amended): on CSPRNG failure the generators do not return empty —
`makePassword` and `makeHexBlock` return exactly the prefix the available
bits funded (⌊avail/6⌋ characters resp. ⌊avail/8⌋ byte pairs), and `makePin`
always returns the full requested length, padding with the sentinel's
digits. -/
theorem C4_partial_output (len b n : Nat) (s : RandState) (hwf : WF s) :
    (makePassword len s).1.length = min len (avail s / 6) ∧
    (makeHexBlock b s).1.length = 2 * min b (avail s / 8) ∧
    (makePin n s).1.length = n :=
  ⟨makePassword_length len s hwf, makeHexBlock_length b s hwf, makePin_length n s⟩

theorem C4_witness :
    (makePassword 2 sP).1.length = min 2 (avail sP / 6) ∧
    (makeHexBlock 1 sP).1.length = 2 * min 1 (avail sP / 8) ∧
    (makePin 7 sP).1.length = 7 :=
  C4_partial_output 2 1 7 sP (by decide)

/-- Cells distinguished only after an embedded NUL byte. -/
def c5a : DataRow := ⟨[97, 0, 98], [], [], []⟩

/-- Byte-wise strictly greater than `c5a` after the NUL. -/
def c5b : DataRow := ⟨[97, 0, 99], [], [], []⟩

/-- C5 counterexample: `c5a` is byte-wise lexicographically smaller than
`c5b`, but `operator<` (built on `strcmp`, which stops at the first NUL)
does not order them. -/
theorem C5_counterexample :
    DataRow.lt c5a c5b = false ∧ specRowLt c5a c5b := by decide

/-- C5 (amended): `operator<` holds exactly when the tuple of the four cells
each truncated at its first NUL byte (the prefix `strcmp` reads) is
lexicographically smaller in role order; equal-keyed records compare as
equal and multiset insertion keeps every record, duplicates included. -/
theorem C5_order (r s : DataRow) (l : List DataRow) :
    (DataRow.lt r s = true ↔ tupLexLt (cKey r) (cKey s)) ∧
    (cKey r = cKey s → DataRow.lt r s = false) ∧
    (insertRow r l).Perm (r :: l) := by
  refine ⟨?_, lt_false_of_cKey_eq, insertRow_perm r l⟩
  rw [lt_iff_tupCmp, tupCmp_lt_iff_tupLexLt]

theorem C5_witness :
    (DataRow.lt c1w2 c1w1 = true ↔ tupLexLt (cKey c1w2) (cKey c1w1)) ∧
    (cKey c1w2 = cKey c1w1 → DataRow.lt c1w2 c1w1 = false) ∧
    (insertRow c1w2 [c1w1]).Perm (c1w2 :: [c1w1]) :=
  C5_order c1w2 c1w1 [c1w1]

/-- C6: `DataRow::encode` returns 0 exactly for all-empty records (and then
for every destination mode), emits the record frame containing exactly the
non-empty cells in the role order 0, 1, 2, 16, and with a destination buffer
returns 0 whenever the computed frame size exceeds `maxSize`. -/
theorem C6_encode (r : DataRow) (d : Bool) (m : Nat) :
    (r.entryDataSize = 0 ↔ r.service = [] ∧ r.login = [] ∧ r.password = [] ∧ r.comment = []) ∧
    ((r.service = [] ∧ r.login = [] ∧ r.password = [] ∧ r.comment = []) → r.encode d m = 0) ∧
    r.rowBytes = asn1PutObject true 0 17 r.entryDataSize ++
      cellFrames (r.taggedCells.filter fun p => !p.2.isEmpty) ∧
    (asn1ObjectSize r.entryDataSize 17 > m → r.encode true m = 0) := by
  refine ⟨entryDataSize_eq_zero_iff r, ?_, ?_, ?_⟩
  · intro h
    rw [DataRow.encode, if_pos ((entryDataSize_eq_zero_iff r).mpr h)]
  · rw [DataRow.rowBytes, pieces_eq_cellFrames]
  · intro h
    by_cases h0 : r.entryDataSize = 0
    · rw [DataRow.encode, if_pos h0]
    · simp only [DataRow.encode, h0, if_false]
      rw [if_pos ⟨trivial, h⟩]

/-- A record whose frame does not fit into three bytes. -/
def c6row : DataRow := ⟨[120], [], [], []⟩

theorem C6_witness :
    (c6row.entryDataSize = 0 ↔
      c6row.service = [] ∧ c6row.login = [] ∧ c6row.password = [] ∧ c6row.comment = []) ∧
    ((c6row.service = [] ∧ c6row.login = [] ∧ c6row.password = [] ∧ c6row.comment = []) →
      c6row.encode true 3 = 0) ∧
    c6row.rowBytes = asn1PutObject true 0 17 c6row.entryDataSize ++
      cellFrames (c6row.taggedCells.filter fun p => !p.2.isEmpty) ∧
    (asn1ObjectSize c6row.entryDataSize 17 > 3 → c6row.encode true 3 = 0) :=
  C6_encode c6row true 3

/-- Pool state with the bit counter at zero and a refusing CSPRNG. -/
def sEmpty : RandState := ⟨[0, 0, 0, 0, 0, 0, 0, 0], 0, []⟩

/-- C7: `makePin(n)` always returns exactly `n` characters, all decimal
digits, even across pool failures: a failed draw makes `makeNumber` return
its sentinel 10000, whose four low decimal digits are still emitted. -/
theorem C7_pin_shape (n : Nat) (s sf : RandState) (c : Char)
    (hc : c ∈ (makePin n s).1) (hf : (getBits 32 sf).1 = none) :
    ((makePin n s).1.length = n ∧ c.isDigit = true) ∧
    (makeNumber 10000 sf).1 = 10000 ∧ fourDigits 10000 = ['0', '0', '0', '0'] := by
  refine ⟨⟨makePin_length n s, makePin_digits n s c hc⟩, ?_, by decide⟩
  rcases hg : getBits 32 sf with ⟨ov, s1⟩
  rw [hg] at hf
  simp only at hf
  subst hf
  rw [makeNumber, hg]

theorem C7_witness :
    ((makePin 7 sP).1.length = 7 ∧ Char.isDigit '0' = true) ∧
    (makeNumber 10000 sEmpty).1 = 10000 ∧ fourDigits 10000 = ['0', '0', '0', '0'] :=
  C7_pin_shape 7 sP sEmpty '0' (by decide) (by decide)

/-- Pool state holding the single byte 0xAB. -/
def sAB : RandState := ⟨[171, 0, 0, 0, 0, 0, 0, 0], 8, []⟩

/-- C8: with no pool failure `makeHexBlock(b)` returns a lowercase hex
string of length 2·b; each drawn byte is emitted low nibble first, then high
nibble; in particular a drawn byte 0xAB yields "ba". -/
theorem C8_hex_format (b bd : Nat) (s sd : RandState) (t : Nat) (sd' : RandState)
    (c : Char) (hwf : WF s) (hav : 8 * b ≤ avail s) (hc : c ∈ (makeHexBlock b s).1)
    (hg : getBits 8 sd = (some t, sd')) :
    ((makeHexBlock b s).1.length = 2 * b ∧ c ∈ hexCharSet) ∧
    (makeHexBlock (bd + 1) sd).1 =
      hexCharSet.getD (t % 16) 'X' :: hexCharSet.getD (t / 16) 'X' ::
        (makeHexBlock bd sd').1 ∧
    (makeHexBlock 1 sAB).1 = ['b', 'a'] := by
  refine ⟨⟨?_, makeHexBlock_chars b s hwf c hc⟩, makeHexBlock_step bd sd t sd' hg, by decide⟩
  rw [makeHexBlock_length b s hwf]
  omega

theorem C8_witness :
    ((makeHexBlock 1 sAB).1.length = 2 * 1 ∧ 'b' ∈ hexCharSet) ∧
    (makeHexBlock (0 + 1) sAB).1 =
      hexCharSet.getD (171 % 16) 'X' :: hexCharSet.getD (171 / 16) 'X' ::
        (makeHexBlock 0 (⟨[171, 0, 0, 0, 0, 0, 0, 0], 0, []⟩ : RandState)).1 ∧
    (makeHexBlock 1 sAB).1 = ['b', 'a'] :=
  C8_hex_format 1 0 sAB sAB 171 ⟨[171, 0, 0, 0, 0, 0, 0, 0], 0, []⟩ 'b'
    (by decide) (by decide) (by decide) (by decide)

/-- C9: the empty vault serializes to the 2-byte empty outer sequence frame,
and the encryption path — which preserves the payload length and appends the
12-byte IV and the 16-byte tag — hands exactly 30 bytes to the file writer. -/
theorem C9_empty_vault_size (encFn : Bytes → Bytes) (iv mac : Bytes)
    (hiv : iv.length = 12) (hmac : mac.length = 16)
    (hlen : (encFn (encodeSequence [])).length = (encodeSequence []).length) :
    (encodeSequence []).length = 2 ∧
    writeDbFileBytes encFn iv mac [] = some (encFn (encodeSequence []) ++ iv ++ mac) ∧
    (encFn (encodeSequence []) ++ iv ++ mac).length = 30 := by
  have h2 : (encodeSequence []).length = 2 := by decide
  refine ⟨h2, ?_, ?_⟩
  · rw [writeDbFileBytes,
      if_neg (by decide : ¬((encodeSequence []).length ≠
        asn1ObjectSize (sequenceInnerSize []) 16)),
      encryptData, if_neg (by simp [hiv]), if_neg (by simp [hlen]),
      if_neg (by simp [hmac])]
  · simp only [List.length_append, hiv, hmac, hlen, h2]

theorem C9_witness :
    (encodeSequence []).length = 2 ∧
    writeDbFileBytes id (List.replicate 12 0) (List.replicate 16 0) [] =
      some (id (encodeSequence []) ++ List.replicate 12 0 ++ List.replicate 16 0) ∧
    (id (encodeSequence []) ++ List.replicate 12 0 ++ List.replicate 16 0).length = 30 :=
  C9_empty_vault_size id (List.replicate 12 0) (List.replicate 16 0)
    (by decide) (by decide) (by decide)

/-- Pool state full of zero bits. -/
def spw : RandState := ⟨[0, 0, 0, 0, 0, 0, 0, 0], 256, []⟩

/-- C10: on a well-formed pool every successful draw of 1 ≤ n ≤ 32 bits is
strictly below 2^n and preserves the pool invariant (consumed high bits of
the top limb masked to zero); consequently every 6-bit draw in
`makePassword` indexes the 64-character alphabet in bounds. -/
theorem C10_getBits_bound (n : Nat) (s : RandState) (v : Nat) (s' : RandState)
    (len : Nat) (sp : RandState) (c : Char)
    (h1 : 1 ≤ n) (h2 : n ≤ 32) (hwf : WF s) (hg : getBits n s = (some v, s'))
    (hwfp : WF sp) (hc : c ∈ (makePassword len sp).1) :
    (v < 2 ^ n ∧ WF s') ∧ c ∈ passwordCharSet :=
  ⟨getBits_sound h1 h2 hwf hg, makePassword_chars len sp hwfp c hc⟩

theorem C10_witness :
    (0 < 2 ^ 6 ∧ WF (⟨[0, 0, 0, 0, 0, 0, 0, 0], 250, []⟩ : RandState)) ∧
    'A' ∈ passwordCharSet :=
  C10_getBits_bound 6 spw 0 ⟨[0, 0, 0, 0, 0, 0, 0, 0], 250, []⟩ 1 spw 'A'
    (by decide) (by decide) (by decide) (by decide) (by decide) (by decide)

example : beBytes 300 300 = [1, 44] := by decide
example : lenOctets 5 = [5] := by decide
example : lenOctets 300 = [130, 1, 44] := by decide
example : parseLen [130, 1, 44, 9, 9] = some (300, 3) := by decide
example : asn1GetObject (asn1PutObject true 0 16 0) = some (true, 0, 16, 0, 2) := by decide
example :
    parseRow ((⟨[103], [], [117], []⟩ : DataRow).rowBytes ++ [7]) =
      (⟨[103], [], [117], []⟩, [7]) := by decide
